import Mathlib

/-
Verification of the SMuFL metadata-generation scripts of the `sebastian`
repository (src/scripts/ffsmufl.py, src/scripts/ff_smufl_metadata.py,
src/scripts/ff-smufl.py, src/scripts/build.py).

The repository extracts SMuFL font metadata from fontforge font objects.
We give a shallow embedding of the three parallel metadata implementations:
  * namespace `Ffsmufl`         — ffsmufl.py           (`SmuflFont`, `_SmuflMetadata`)
  * namespace `FfSmuflMetadata` — ff_smufl_metadata.py (`SmuflMetadata` and module helpers)
  * namespace `FfSmufl`         — ff-smufl.py          (`SmuflFont`, `SmuflMetadata`)
Fontforge objects (glyphs, anchor points, lookup tables) are modelled as plain
data; fontforge numbers are modelled as exact rationals; Python dicts are
modelled as association lists with insertion-order semantics (a repeated key
assignment overwrites the value in place); Python exceptions are modelled with
`Except` over an exception-class type `PyExc`.
-/

/-- Model of one fontforge anchor-point tuple `(name, type, x, y, ...)`.
The scripts read `anchor[0]` (the name) and `anchor[2:4]` (the coordinates). -/
structure AnchorPoint where
  name : String
  atype : String
  x : ℚ
  y : ℚ

/-- Model of one entry of `glyph.getPosSub('*')`: a tuple
`(subtable-name, type, ...data)`; the scripts read `table[1]` (the type,
e.g. 'AltSubs' or 'Ligature') and `table[2:]` (glyph names). -/
structure PSTable where
  sub : String
  typ : String
  data : List String

/-- Model of a fontforge glyph as consumed by the scripts: `glyph.unicode`
(an integer, possibly -1 for unencoded glyphs), `glyph.glyphname`,
`glyph.anchorPoints`, `glyph.boundingBox()` = (xmin, ymin, xmax, ymax),
and `glyph.getPosSub('*')`. -/
structure Glyph where
  unicode : ℤ
  glyphname : String
  anchorPoints : List AnchorPoint
  boundingBox : ℚ × ℚ × ℚ × ℚ
  posSub : List PSTable

/-- Model of a fontforge font as consumed by the scripts: `font.fontname`,
`font.version`, `font.glyphs()` (in enumeration order) and `font[name]`
(glyph lookup by name; `none` models the name not existing in the font,
on which fontforge raises). -/
structure Font where
  fontname : String
  version : String
  glyphs : List Glyph
  byName : String → Option Glyph

deriving instance DecidableEq for AnchorPoint
deriving instance DecidableEq for PSTable
deriving instance DecidableEq for Glyph

/-- Python exception classes raised by the modelled code. Only the class
structure needed by the scripts is modelled; `isLookupError` below records
which of them are subclasses of Python's builtin `LookupError`. -/
inductive PyExc where
  | nameError
  | keyError (msg : String)
  | indexError (msg : String)
  | valueError (msg : String)
  | typeError (msg : String)
  | permissionError (msg : String)

deriving instance DecidableEq for PyExc

/-- Python's builtin exception hierarchy: `LookupError` is the base class of
exactly `KeyError` and `IndexError`; `ValueError`, `NameError`, `TypeError`
and `PermissionError` are not `LookupError`s. -/
def PyExc.isLookupError : PyExc → Bool
  | .keyError _ => true
  | .indexError _ => true
  | _ => false

/-- The codepoint→name table built from glyphnames.json:
`{data['codepoint']: name for name, data in glyphnames.items()}`. -/
abbrev GlyphTable : Type := List (String × String)

/-- Python dict lookup `m[k]` (as an `Option`). -/
def dlookup {α : Type} : List (String × α) → String → Option α
  | [], _ => none
  | (k', v) :: rest, k => if k' = k then some v else dlookup rest k

/-- Python dict assignment `m[k] = v`: overwrites in place if the key exists
(keeping its position), otherwise appends the new key at the end. This is the
insertion-order semantics of Python 3.7+ dicts. -/
def dinsert {α : Type} : List (String × α) → String → α → List (String × α)
  | [], k, v => [(k, v)]
  | (k', v') :: rest, k, v =>
    if k' = k then (k, v) :: rest else (k', v') :: dinsert rest k v

/-- The keys of a modelled dict, in order. -/
def keys {α : Type} (m : List (String × α)) : List String := m.map Prod.fst

/-- Hexadecimal digits with explicit fuel (structural recursion, so that the
kernel can evaluate it); `fuel` only needs to exceed the number of digits. -/
def hexCharsF : ℕ → ℕ → List Char
  | _, 0 => []
  | n, fuel + 1 =>
    if n < 16 then [Nat.digitChar n]
    else hexCharsF (n / 16) fuel ++ [Nat.digitChar (n % 16)]

/-- Hexadecimal digits of a natural number, lowercase, most significant first;
the digits of Python's `hex(n)` after the '0x' prefix. -/
def hexChars (n : ℕ) : List Char := hexCharsF n (n + 1)

/-- Model of the Python expression `hex(u)[2:].upper()` used by the scripts.
For `u ≥ 0`, `hex(u)` is '0x' followed by lowercase hex digits, so the slice
keeps exactly the digits; for `u < 0`, `hex(u)` is '-0x...' so the slice keeps
a stray 'x' and the digits. -/
def hexSliceUpper (u : ℤ) : String :=
  if u < 0 then String.mk ('X' :: (hexChars u.natAbs).map Char.toUpper)
  else String.mk ((hexChars u.toNat).map Char.toUpper)

/-- Value of a hexadecimal digit character, as accepted by Python's
`int(s, 16)` (both cases accepted). -/
def hexCharVal (c : Char) : ℕ :=
  if '0' ≤ c ∧ c ≤ '9' then c.toNat - 48
  else if 'A' ≤ c ∧ c ≤ 'F' then c.toNat - 55
  else if 'a' ≤ c ∧ c ≤ 'f' then c.toNat - 87
  else 0

/-- Hexadecimal parsing of a digit list, `int(s, 16)` style. -/
def parseHexList (l : List Char) : ℕ :=
  l.foldl (fun a c => 16 * a + hexCharVal c) 0

/-- Parsing a formatted codepoint string back to a number:
`int(s[2:], 16)`, dropping the 'U+' prefix. -/
def parseCodepoint (s : String) : ℕ := parseHexList (s.data.drop 2)

/-- Python's builtin `round` to the nearest integer on exact rationals:
round half to even. Written with integer arithmetic so that it evaluates
inside the kernel: `f` is `⌊x⌋`, and `r2 < den` / `den < r2` compare the
fractional part `x - ⌊x⌋` with `1/2` (see `pyRoundInt_eq` below for the
equivalent textbook formulation). -/
def pyRoundInt (x : ℚ) : ℤ :=
  if 2 * (x.num - x.num.fdiv x.den * x.den) < (x.den : ℤ) then x.num.fdiv x.den
  else if (x.den : ℤ) < 2 * (x.num - x.num.fdiv x.den * x.den) then x.num.fdiv x.den + 1
  else if x.num.fdiv x.den % 2 = 0 then x.num.fdiv x.den
  else x.num.fdiv x.den + 1

/-- `round(x, 3)`: round half to even at three decimal places. -/
def round3 (x : ℚ) : ℚ := (pyRoundInt (x * 1000) : ℚ) / 1000

/-- The 21-entry anchor-name allow-list: `SmuflFont.valid_anchor_names` in
ffsmufl.py and ff-smufl.py, `SMUFL_ANCHOR_NAMES` in ff_smufl_metadata.py
(the three tuples are identical). -/
def SMUFL_ANCHOR_NAMES : List String :=
  [ "stemUpSE", "stemUpNW", "stemDownNW", "stemDownSW",
    "splitStemUpSE", "splitStemUpSW", "splitStemDownNE", "splitStemDownNW",
    "cutOutNE", "cutOutSE", "cutOutSW", "cutOutNW",
    "numeralTop", "numeralBottom",
    "graceNoteSlashSW", "graceNoteSlashNE", "graceNoteSlashNW", "graceNoteSlashSE",
    "repeatOffset", "noteheadOrigin", "opticalCenter" ]

/-- The SMuFL-range glyph iteration shared by all three scripts
(`SmuflFont.__iter__` in ffsmufl.py and ff-smufl.py, `SmuflMetadata.characters`
in ff_smufl_metadata.py):
`(char for char in font.glyphs() if 57344 <= char.unicode <= 62463)`. -/
def characters (font : Font) : List Glyph :=
  font.glyphs.filter (fun g => decide (57344 ≤ g.unicode) && decide (g.unicode ≤ 62463))

/-- Canonical-name resolution with the fallback branch taken when the lookup
misses: the value computed by `smufl_canonical_name(glyph)` /
`canonical_glyphname(glyph.unicode)` when called with the default
`fallback=True` and the fallback return works (see the lemmas relating this
to the per-module functions below). -/
def canonicalNameFB (table : GlyphTable) (g : Glyph) : String :=
  match dlookup table ("U+" ++ hexSliceUpper g.unicode) with
  | some name => name
  | none => g.glyphname

/-- One `{codepoint, name}` record of a glyphsWithAlternates entry. -/
structure AltRecord where
  codepoint : String
  name : String

/-- One `{codepoint, componentGlyphs}` record of a ligatures entry. -/
structure LigRecord where
  codepoint : String
  componentGlyphs : List String

deriving instance DecidableEq for AltRecord
deriving instance DecidableEq for LigRecord

/-- JSON-level values of the metadata document, as serialized by `json.dump`
(Python tuples and lists both serialize as arrays). -/
inductive Val where
  | s (v : String)
  | num (v : ℚ)
  | arr (vs : List Val)
  | dict (entries : List (String × Val))

/-- The typed sub-table results, before JSON conversion. -/
abbrev AnchTbl : Type := List (String × List (String × (ℚ × ℚ)))

abbrev AltTbl : Type := List (String × List (String × List AltRecord))

abbrev BBoxTbl : Type := List (String × List (String × (ℚ × ℚ)))

abbrev LigTbl : Type := List (String × LigRecord)

/-- JSON conversion of an engravingDefaults mapping. -/
def edVal (l : List (String × ℚ)) : Val :=
  .dict (l.map fun p => (p.1, .num p.2))

/-- JSON conversion of a glyphsWithAnchors mapping. -/
def anchVal (m : AnchTbl) : Val :=
  .dict (m.map fun p => (p.1, Val.dict (p.2.map fun q => (q.1, Val.arr [.num q.2.1, .num q.2.2]))))

/-- JSON conversion of one `{codepoint, name}` record. -/
def altRecVal (r : AltRecord) : Val :=
  .dict [("codepoint", .s r.codepoint), ("name", .s r.name)]

/-- JSON conversion of a glyphsWithAlternates mapping. -/
def altVal (m : AltTbl) : Val :=
  .dict (m.map fun p => (p.1, Val.dict (p.2.map fun q => (q.1, Val.arr (q.2.map altRecVal)))))

/-- JSON conversion of a glyphBBoxes mapping. -/
def bboxVal (m : BBoxTbl) : Val :=
  .dict (m.map fun p => (p.1, Val.dict (p.2.map fun q => (q.1, Val.arr [.num q.2.1, .num q.2.2]))))

/-- JSON conversion of a ligatures mapping. -/
def ligVal (m : LigTbl) : Val :=
  .dict (m.map fun p =>
    (p.1, Val.dict [("codepoint", .s p.2.codepoint),
                    ("componentGlyphs", .arr (p.2.componentGlyphs.map Val.s))]))

namespace FfSmuflMetadata

/-- ff_smufl_metadata.py, `smufl_codepoint(glyph)`:
`'U+' + hex(glyph.unicode)[2:].upper()`. -/
def smufl_codepoint (g : Glyph) : String := "U+" ++ hexSliceUpper g.unicode

/-- ff_smufl_metadata.py, `smufl_canonical_name(glyph, fallback=True)`:
looks the formatted codepoint up in `SMUFL_CODEPOINT_TO_NAME`; on a `KeyError`
returns `glyph.glyphname` when `fallback` is true, otherwise raises
`ValueError`. -/
def smufl_canonical_name (table : GlyphTable) (g : Glyph) (fallback : Bool) :
    Except PyExc String :=
  match dlookup table (smufl_codepoint g) with
  | some name => .ok name
  | none =>
    if fallback then .ok g.glyphname
    else .error (.valueError
      ("there’s no SMuFL character defined at codepoint " ++ smufl_codepoint g ++ "."))

/-- ff_smufl_metadata.py, `to_spaces(i)`: `round(i/250, 3)`. -/
def to_spaces (i : ℚ) : ℚ := round3 (i / 250)

/-- The inner anchor loop of `SmuflMetadata.glyphsWithAnchors`: keep each
anchor whose name is in `SMUFL_ANCHOR_NAMES`, mapped to its unit-converted
coordinate pair (`char_anchors[anchor_name] = (x, y)`). -/
def anchorLoop : List AnchorPoint → List (String × (ℚ × ℚ)) → List (String × (ℚ × ℚ))
  | [], acc => acc
  | a :: rest, acc =>
    if a.name ∈ SMUFL_ANCHOR_NAMES then
      anchorLoop rest (dinsert acc a.name (to_spaces a.x, to_spaces a.y))
    else anchorLoop rest acc

/-- The outer glyph loop of `SmuflMetadata.glyphsWithAnchors`. The glyph's
canonical name is only resolved when `char_anchors` is non-empty; the call is
`smufl_canonical_name(char)` with the default `fallback=True`, whose value is
`canonicalNameFB` (lemma `smufl_canonical_name_true` below). -/
def glyphsWithAnchorsGo (table : GlyphTable) :
    List Glyph → AnchTbl → AnchTbl
  | [], acc => acc
  | g :: rest, acc =>
    let ca := anchorLoop g.anchorPoints []
    if ca.isEmpty then glyphsWithAnchorsGo table rest acc
    else glyphsWithAnchorsGo table rest (dinsert acc (canonicalNameFB table g) ca)

/-- ff_smufl_metadata.py, `SmuflMetadata.glyphsWithAnchors`. -/
def glyphsWithAnchors (table : GlyphTable) (font : Font) : AnchTbl :=
  glyphsWithAnchorsGo table (characters font) []

/-- The innermost loop of `SmuflMetadata.glyphsWithAlternates`: for each
substitute name of one 'AltSubs' rule, resolve `font[name]`, then build the
`{codepoint, name}` record. A name missing from the font raises (fontforge
rejects `font[name]` for unknown names; the exact exception class is
immaterial here). -/
def altNamesLoop (table : GlyphTable) (font : Font) :
    List String → Except PyExc (List AltRecord)
  | [] => .ok []
  | n :: rest =>
    match font.byName n with
    | none => .error (.typeError "No glyph with that name in the font.")
    | some sub =>
      let codepoint := smufl_codepoint sub
      let name := canonicalNameFB table sub
      match altNamesLoop table font rest with
      | .error e => .error e
      | .ok recs => .ok ({ codepoint := codepoint, name := name } :: recs)

/-- The middle loop of `SmuflMetadata.glyphsWithAlternates`, over the glyph's
lookup tables of type 'AltSubs', appending the records rule by rule. -/
def altRulesLoop (table : GlyphTable) (font : Font) :
    List PSTable → Except PyExc (List AltRecord)
  | [] => .ok []
  | r :: rest =>
    match altNamesLoop table font r.data with
    | .error e => .error e
    | .ok recs1 =>
      match altRulesLoop table font rest with
      | .error e => .error e
      | .ok recs2 => .ok (recs1 ++ recs2)

/-- The `char_alternates` list computed for one glyph: all records of its
'AltSubs' rules, in rule order. -/
def altRecsOfGlyph (table : GlyphTable) (font : Font) (g : Glyph) :
    Except PyExc (List AltRecord) :=
  altRulesLoop table font (g.posSub.filter (fun t => t.typ == "AltSubs"))

/-- The outer glyph loop of `SmuflMetadata.glyphsWithAlternates`: a glyph
contributes only if `char_alternates` is non-empty, and its entry is the
wrapper dict `{'alternates': char_alternates}`. -/
def glyphsWithAlternatesGo (table : GlyphTable) (font : Font) :
    List Glyph → AltTbl → Except PyExc AltTbl
  | [], acc => .ok acc
  | g :: rest, acc =>
    match altRecsOfGlyph table font g with
    | .error e => .error e
    | .ok recs =>
      if recs.isEmpty then glyphsWithAlternatesGo table font rest acc
      else glyphsWithAlternatesGo table font rest
        (dinsert acc (canonicalNameFB table g) [("alternates", recs)])

/-- ff_smufl_metadata.py, `SmuflMetadata.glyphsWithAlternates`. -/
def glyphsWithAlternates (table : GlyphTable) (font : Font) : Except PyExc AltTbl :=
  glyphsWithAlternatesGo table font (characters font) []

/-- The glyph loop of `SmuflMetadata.glyphBBoxes`: every SMuFL-range glyph
contributes `{'bBoxNE': (xmax, ymax), 'bBoxSW': (xmin, ymin)}` with
unit-converted extents, keyed by its canonical name. -/
def glyphBBoxesGo (table : GlyphTable) : List Glyph → BBoxTbl → BBoxTbl
  | [], acc => acc
  | g :: rest, acc =>
    let bb := g.boundingBox
    let bbrec := [("bBoxNE", (to_spaces bb.2.2.1, to_spaces bb.2.2.2)),
                  ("bBoxSW", (to_spaces bb.1, to_spaces bb.2.1))]
    glyphBBoxesGo table rest (dinsert acc (canonicalNameFB table g) bbrec)

/-- ff_smufl_metadata.py, `SmuflMetadata.glyphBBoxes`. -/
def glyphBBoxes (table : GlyphTable) (font : Font) : BBoxTbl :=
  glyphBBoxesGo table (characters font) []

/-- The inner rule loop of `SmuflMetadata.ligatures`: each 'Ligature' rule
assigns `all_ligatures[char_name] = {codepoint, componentGlyphs}`, so a later
rule overwrites an earlier one for the same glyph. -/
def ligRulesLoop (nm cp : String) : List PSTable → LigTbl → LigTbl
  | [], acc => acc
  | r :: rest, acc =>
    ligRulesLoop nm cp rest (dinsert acc nm { codepoint := cp, componentGlyphs := r.data })

/-- The glyph loop of `SmuflMetadata.ligatures`; the canonical name is
resolved for every SMuFL-range glyph, before its rules are inspected. -/
def ligaturesGo (table : GlyphTable) : List Glyph → LigTbl → LigTbl
  | [], acc => acc
  | g :: rest, acc =>
    let nm := canonicalNameFB table g
    ligaturesGo table rest
      (ligRulesLoop nm (smufl_codepoint g) (g.posSub.filter (fun t => t.typ == "Ligature")) acc)

/-- ff_smufl_metadata.py, `SmuflMetadata.ligatures`. -/
def ligatures (table : GlyphTable) (font : Font) : LigTbl :=
  ligaturesGo table (characters font) []

/-- ff_smufl_metadata.py, `SmuflMetadata.asdict`. `fontName` and `fontVersion`
are always present; each optional sub-table is added only when truthy
(non-empty), in the fixed order engravingDefaults, glyphsWithAnchors,
glyphsWithAlternates, glyphBBoxes, ligatures. Only the alternates sub-table
can raise (via `font[name]`), in which case `asdict` raises. -/
def asdict (table : GlyphTable) (font : Font)
    (engravingDefaults : Option (List (String × ℚ))) :
    Except PyExc (List (String × Val)) :=
  match glyphsWithAlternates table font with
  | .error e => .error e
  | .ok alts =>
    let anchors := glyphsWithAnchors table font
    let bboxes := glyphBBoxes table font
    let ligs := ligatures table font
    .ok ([("fontName", .s font.fontname), ("fontVersion", .s font.version)]
      ++ (match engravingDefaults with
          | some l => if l.isEmpty then [] else [("engravingDefaults", edVal l)]
          | none => [])
      ++ (if anchors.isEmpty then [] else [("glyphsWithAnchors", anchVal anchors)])
      ++ (if alts.isEmpty then [] else [("glyphsWithAlternates", altVal alts)])
      ++ (if bboxes.isEmpty then [] else [("glyphBBoxes", bboxVal bboxes)])
      ++ (if ligs.isEmpty then [] else [("ligatures", ligVal ligs)]))

end FfSmuflMetadata

namespace Ffsmufl

/-- ffsmufl.py, `SmuflFont.format_codepoint(unicode_)`:
`'U+' + hex(unicode_)[2:].upper()`. -/
def format_codepoint (u : ℤ) : String := "U+" ++ hexSliceUpper u

/-- ffsmufl.py, `SmuflFont.canonical_glyphname(unicode_, fallback=True)`.
On a lookup miss with `fallback` true the code executes
`return glyph.glyphname`, but no variable `glyph` is in scope in this
static method (its parameter is `unicode_`), so Python raises `NameError`;
with `fallback` false it raises `ValueError` (the message below reproduces
the mojibake apostrophe present in the source file). -/
def canonical_glyphname (table : GlyphTable) (u : ℤ) (fallback : Bool) :
    Except PyExc String :=
  match dlookup table (format_codepoint u) with
  | some name => .ok name
  | none =>
    if fallback then .error .nameError
    else .error (.valueError
      ("Thereâ€™s no SMuFL character defined at codepoint " ++ format_codepoint u ++ "."))

/-- ffsmufl.py, `SmuflFont.em_to_spaces(em)`: `round(em/250, 3)`. -/
def em_to_spaces (em : ℚ) : ℚ := round3 (em / 250)

/-- ffsmufl.py, `SmuflFont.save(*args)`: raises `PermissionError` when the
font was opened read-only and no arguments are given; otherwise delegates to
`fontforge.font.save(*args)`. The `.ok` payload records the argument list of
the delegated call; an `.error` result means the underlying save was never
invoked. -/
def save (read_only : Bool) (args : List String) : Except PyExc (List String) :=
  if read_only && args.isEmpty then
    .error (.permissionError "Font is opened in read-only mode.")
  else .ok args

/-- The inner anchor loop of `_SmuflMetadata.anchors` (identical to the one in
ff_smufl_metadata.py, using `em_to_spaces`). -/
def anchorLoop : List AnchorPoint → List (String × (ℚ × ℚ)) → List (String × (ℚ × ℚ))
  | [], acc => acc
  | a :: rest, acc =>
    if a.name ∈ SMUFL_ANCHOR_NAMES then
      anchorLoop rest (dinsert acc a.name (em_to_spaces a.x, em_to_spaces a.y))
    else anchorLoop rest acc

/-- The glyph loop of `_SmuflMetadata.anchors`: the canonical name is resolved
(with the default `fallback=True`, hence `Except`) only when `char_anchors`
is non-empty. -/
def anchorsGo (table : GlyphTable) : List Glyph → AnchTbl → Except PyExc AnchTbl
  | [], acc => .ok acc
  | g :: rest, acc =>
    let ca := anchorLoop g.anchorPoints []
    if ca.isEmpty then anchorsGo table rest acc
    else
      match canonical_glyphname table g.unicode true with
      | .error e => .error e
      | .ok nm => anchorsGo table rest (dinsert acc nm ca)

/-- ffsmufl.py, `_SmuflMetadata.anchors`. -/
def anchors (table : GlyphTable) (font : Font) : Except PyExc AnchTbl :=
  anchorsGo table (characters font) []

/-- The innermost loop of `_SmuflMetadata.alternates` over the substitute
names of one 'AltSubs' rule. -/
def altNamesLoop (table : GlyphTable) (font : Font) :
    List String → Except PyExc (List AltRecord)
  | [] => .ok []
  | n :: rest =>
    match font.byName n with
    | none => .error (.typeError "No glyph with that name in the font.")
    | some sub =>
      let codepoint := format_codepoint sub.unicode
      match canonical_glyphname table sub.unicode true with
      | .error e => .error e
      | .ok name =>
        match altNamesLoop table font rest with
        | .error e => .error e
        | .ok recs => .ok ({ codepoint := codepoint, name := name } :: recs)

/-- The middle loop of `_SmuflMetadata.alternates` over the glyph's 'AltSubs'
lookup tables. -/
def altRulesLoop (table : GlyphTable) (font : Font) :
    List PSTable → Except PyExc (List AltRecord)
  | [] => .ok []
  | r :: rest =>
    match altNamesLoop table font r.data with
    | .error e => .error e
    | .ok recs1 =>
      match altRulesLoop table font rest with
      | .error e => .error e
      | .ok recs2 => .ok (recs1 ++ recs2)

/-- The `char_alternates` list computed for one glyph by
`_SmuflMetadata.alternates`. -/
def altRecsOfGlyph (table : GlyphTable) (font : Font) (g : Glyph) :
    Except PyExc (List AltRecord) :=
  altRulesLoop table font (g.posSub.filter (fun t => t.typ == "AltSubs"))

/-- The outer glyph loop of `_SmuflMetadata.alternates`. -/
def alternatesGo (table : GlyphTable) (font : Font) :
    List Glyph → AltTbl → Except PyExc AltTbl
  | [], acc => .ok acc
  | g :: rest, acc =>
    match altRecsOfGlyph table font g with
    | .error e => .error e
    | .ok recs =>
      if recs.isEmpty then alternatesGo table font rest acc
      else
        match canonical_glyphname table g.unicode true with
        | .error e => .error e
        | .ok nm =>
          alternatesGo table font rest (dinsert acc nm [("alternates", recs)])

/-- ffsmufl.py, `_SmuflMetadata.alternates`. -/
def alternates (table : GlyphTable) (font : Font) : Except PyExc AltTbl :=
  alternatesGo table font (characters font) []

/-- The glyph loop of `_SmuflMetadata.bounding_boxes`: the canonical name is
resolved for every SMuFL-range glyph, unconditionally. -/
def bounding_boxesGo (table : GlyphTable) : List Glyph → BBoxTbl → Except PyExc BBoxTbl
  | [], acc => .ok acc
  | g :: rest, acc =>
    match canonical_glyphname table g.unicode true with
    | .error e => .error e
    | .ok nm =>
      let bb := g.boundingBox
      let bbrec := [("bBoxNE", (em_to_spaces bb.2.2.1, em_to_spaces bb.2.2.2)),
                    ("bBoxSW", (em_to_spaces bb.1, em_to_spaces bb.2.1))]
      bounding_boxesGo table rest (dinsert acc nm bbrec)

/-- ffsmufl.py, `_SmuflMetadata.bounding_boxes`. -/
def bounding_boxes (table : GlyphTable) (font : Font) : Except PyExc BBoxTbl :=
  bounding_boxesGo table (characters font) []

/-- The glyph loop of `_SmuflMetadata.ligatures`: the canonical name is
resolved for every SMuFL-range glyph before its rules are inspected; each
'Ligature' rule then overwrites `all_ligatures[char_name]`
(`FfSmuflMetadata.ligRulesLoop` is that identical inner rule loop). -/
def ligaturesGo (table : GlyphTable) : List Glyph → LigTbl → Except PyExc LigTbl
  | [], acc => .ok acc
  | g :: rest, acc =>
    match canonical_glyphname table g.unicode true with
    | .error e => .error e
    | .ok nm =>
      ligaturesGo table rest
        (FfSmuflMetadata.ligRulesLoop nm (format_codepoint g.unicode)
          (g.posSub.filter (fun t => t.typ == "Ligature")) acc)

/-- ffsmufl.py, `_SmuflMetadata.ligatures`. -/
def ligatures (table : GlyphTable) (font : Font) : Except PyExc LigTbl :=
  ligaturesGo table (characters font) []

/-- ffsmufl.py, `_SmuflMetadata.asdict`. Identical assembly to
ff_smufl_metadata.py: `fontName` and `fontVersion` always, then each truthy
sub-table in fixed order; `defaults` is the wrapping `SmuflFont`'s
`engraving_defaults` attribute. Any exception from the four sub-table
computations propagates (they are evaluated in source order: anchors,
alternates, bounding boxes, ligatures). -/
def asdict (table : GlyphTable) (font : Font)
    (defaults : Option (List (String × ℚ))) :
    Except PyExc (List (String × Val)) :=
  match anchors table font with
  | .error e => .error e
  | .ok anch =>
    match alternates table font with
    | .error e => .error e
    | .ok alts =>
      match bounding_boxes table font with
      | .error e => .error e
      | .ok bboxes =>
        match ligatures table font with
        | .error e => .error e
        | .ok ligs =>
          .ok ([("fontName", .s font.fontname), ("fontVersion", .s font.version)]
            ++ (match defaults with
                | some l => if l.isEmpty then [] else [("engravingDefaults", edVal l)]
                | none => [])
            ++ (if anch.isEmpty then [] else [("glyphsWithAnchors", anchVal anch)])
            ++ (if alts.isEmpty then [] else [("glyphsWithAlternates", altVal alts)])
            ++ (if bboxes.isEmpty then [] else [("glyphBBoxes", bboxVal bboxes)])
            ++ (if ligs.isEmpty then [] else [("ligatures", ligVal ligs)]))

end Ffsmufl

namespace FfSmufl

/-- ff-smufl.py, `SmuflFont.format_codepoint(unicode_)` (same code as in
ffsmufl.py). -/
def format_codepoint (u : ℤ) : String := "U+" ++ hexSliceUpper u

/-- ff-smufl.py, `SmuflFont.canonical_glyphname(unicode_, fallback=True)`:
same code as in ffsmufl.py, including the unbound `glyph` in the fallback
branch (`NameError`); only the apostrophe of the `ValueError` message differs
(this file is not mojibaked). -/
def canonical_glyphname (table : GlyphTable) (u : ℤ) (fallback : Bool) :
    Except PyExc String :=
  match dlookup table (format_codepoint u) with
  | some name => .ok name
  | none =>
    if fallback then .error .nameError
    else .error (.valueError
      ("There’s no SMuFL character defined at codepoint " ++ format_codepoint u ++ "."))

/-- ff-smufl.py, `SmuflFont.em_to_spaces(em)`. -/
def em_to_spaces (em : ℚ) : ℚ := round3 (em / 250)

/-- The inner anchor loop of ff-smufl.py's `SmuflMetadata.anchors`. -/
def anchorLoop : List AnchorPoint → List (String × (ℚ × ℚ)) → List (String × (ℚ × ℚ))
  | [], acc => acc
  | a :: rest, acc =>
    if a.name ∈ SMUFL_ANCHOR_NAMES then
      anchorLoop rest (dinsert acc a.name (em_to_spaces a.x, em_to_spaces a.y))
    else anchorLoop rest acc

/-- The glyph loop of ff-smufl.py's `SmuflMetadata.anchors`. -/
def anchorsGo (table : GlyphTable) : List Glyph → AnchTbl → Except PyExc AnchTbl
  | [], acc => .ok acc
  | g :: rest, acc =>
    let ca := anchorLoop g.anchorPoints []
    if ca.isEmpty then anchorsGo table rest acc
    else
      match canonical_glyphname table g.unicode true with
      | .error e => .error e
      | .ok nm => anchorsGo table rest (dinsert acc nm ca)

/-- ff-smufl.py, `SmuflMetadata.anchors`. -/
def anchors (table : GlyphTable) (font : Font) : Except PyExc AnchTbl :=
  anchorsGo table (characters font) []

/-- The innermost loop of ff-smufl.py's `SmuflMetadata.alternates`. -/
def altNamesLoop (table : GlyphTable) (font : Font) :
    List String → Except PyExc (List AltRecord)
  | [] => .ok []
  | n :: rest =>
    match font.byName n with
    | none => .error (.typeError "No glyph with that name in the font.")
    | some sub =>
      let codepoint := format_codepoint sub.unicode
      match canonical_glyphname table sub.unicode true with
      | .error e => .error e
      | .ok name =>
        match altNamesLoop table font rest with
        | .error e => .error e
        | .ok recs => .ok ({ codepoint := codepoint, name := name } :: recs)

/-- The middle loop of ff-smufl.py's `SmuflMetadata.alternates`. -/
def altRulesLoop (table : GlyphTable) (font : Font) :
    List PSTable → Except PyExc (List AltRecord)
  | [] => .ok []
  | r :: rest =>
    match altNamesLoop table font r.data with
    | .error e => .error e
    | .ok recs1 =>
      match altRulesLoop table font rest with
      | .error e => .error e
      | .ok recs2 => .ok (recs1 ++ recs2)

/-- The `char_alternates` list computed for one glyph by ff-smufl.py's
`SmuflMetadata.alternates`. -/
def altRecsOfGlyph (table : GlyphTable) (font : Font) (g : Glyph) :
    Except PyExc (List AltRecord) :=
  altRulesLoop table font (g.posSub.filter (fun t => t.typ == "AltSubs"))

/-- The outer glyph loop of ff-smufl.py's `SmuflMetadata.alternates`. -/
def alternatesGo (table : GlyphTable) (font : Font) :
    List Glyph → AltTbl → Except PyExc AltTbl
  | [], acc => .ok acc
  | g :: rest, acc =>
    match altRecsOfGlyph table font g with
    | .error e => .error e
    | .ok recs =>
      if recs.isEmpty then alternatesGo table font rest acc
      else
        match canonical_glyphname table g.unicode true with
        | .error e => .error e
        | .ok nm =>
          alternatesGo table font rest (dinsert acc nm [("alternates", recs)])

/-- ff-smufl.py, `SmuflMetadata.alternates`. -/
def alternates (table : GlyphTable) (font : Font) : Except PyExc AltTbl :=
  alternatesGo table font (characters font) []

/-- The glyph loop of ff-smufl.py's `SmuflMetadata.bounding_boxes`. -/
def bounding_boxesGo (table : GlyphTable) : List Glyph → BBoxTbl → Except PyExc BBoxTbl
  | [], acc => .ok acc
  | g :: rest, acc =>
    match canonical_glyphname table g.unicode true with
    | .error e => .error e
    | .ok nm =>
      let bb := g.boundingBox
      let bbrec := [("bBoxNE", (em_to_spaces bb.2.2.1, em_to_spaces bb.2.2.2)),
                    ("bBoxSW", (em_to_spaces bb.1, em_to_spaces bb.2.1))]
      bounding_boxesGo table rest (dinsert acc nm bbrec)

/-- ff-smufl.py, `SmuflMetadata.bounding_boxes`. -/
def bounding_boxes (table : GlyphTable) (font : Font) : Except PyExc BBoxTbl :=
  bounding_boxesGo table (characters font) []

/-- The glyph loop of ff-smufl.py's `SmuflMetadata.ligatures` (the inner rule
loop is the same assignment loop as in the other two files). -/
def ligaturesGo (table : GlyphTable) : List Glyph → LigTbl → Except PyExc LigTbl
  | [], acc => .ok acc
  | g :: rest, acc =>
    match canonical_glyphname table g.unicode true with
    | .error e => .error e
    | .ok nm =>
      ligaturesGo table rest
        (FfSmuflMetadata.ligRulesLoop nm (format_codepoint g.unicode)
          (g.posSub.filter (fun t => t.typ == "Ligature")) acc)

/-- ff-smufl.py, `SmuflMetadata.ligatures`. -/
def ligatures (table : GlyphTable) (font : Font) : Except PyExc LigTbl :=
  ligaturesGo table (characters font) []

/-- ff-smufl.py, `SmuflMetadata.asdict` (same assembly as in ffsmufl.py;
`defaults` is the `engraving_defaults` value handed over by
`SmuflFont.generate_metadata`). -/
def asdict (table : GlyphTable) (font : Font)
    (defaults : Option (List (String × ℚ))) :
    Except PyExc (List (String × Val)) :=
  match anchors table font with
  | .error e => .error e
  | .ok anch =>
    match alternates table font with
    | .error e => .error e
    | .ok alts =>
      match bounding_boxes table font with
      | .error e => .error e
      | .ok bboxes =>
        match ligatures table font with
        | .error e => .error e
        | .ok ligs =>
          .ok ([("fontName", .s font.fontname), ("fontVersion", .s font.version)]
            ++ (match defaults with
                | some l => if l.isEmpty then [] else [("engravingDefaults", edVal l)]
                | none => [])
            ++ (if anch.isEmpty then [] else [("glyphsWithAnchors", anchVal anch)])
            ++ (if alts.isEmpty then [] else [("glyphsWithAlternates", altVal alts)])
            ++ (if bboxes.isEmpty then [] else [("glyphBBoxes", bboxVal bboxes)])
            ++ (if ligs.isEmpty then [] else [("ligatures", ligVal ligs)]))

end FfSmufl

/-! Concrete fonts and tables used as test inputs below. -/

/-- The scenario glyph of the spec: codepoint 57344, one anchor `stemUpSE`
at raw coordinates (40, 100), no lookup rules. -/
def exGlyphNB : Glyph :=
  { unicode := 57344, glyphname := "uniE000",
    anchorPoints := [{ name := "stemUpSE", atype := "base", x := 40, y := 100 }],
    boundingBox := (0, 0, 0, 0), posSub := [] }

/-- Reference table naming codepoint U+E000 "noteheadBlack". -/
def exTable1 : GlyphTable := [("U+E000", "noteheadBlack")]

/-- The scenario font: a single glyph `exGlyphNB`. -/
def exFont1 : Font :=
  { fontname := "Sebastian", version := "1.0", glyphs := [exGlyphNB],
    byName := fun _ => none }

/-- The metadata document of the scenario font. -/
def exDoc1 : List (String × Val) :=
  [("fontName", .s "Sebastian"), ("fontVersion", .s "1.0"),
   ("glyphsWithAnchors", .dict [("noteheadBlack",
      .dict [("stemUpSE", .arr [.num 0.16, .num 0.4])])]),
   ("glyphBBoxes", .dict [("noteheadBlack",
      .dict [("bBoxNE", .arr [.num 0, .num 0]), ("bBoxSW", .arr [.num 0, .num 0])])])]

/-- A glyph at codepoint 57344 whose codepoint is missing from a table. -/
def cexGlyph5 : Glyph :=
  { unicode := 57344, glyphname := "fooGlyph", anchorPoints := [],
    boundingBox := (0, 0, 0, 0), posSub := [] }

/-- A glyph with one 'AltSubs' rule pointing at the substitute "uniF600". -/
def exGlyphAltBase : Glyph :=
  { unicode := 57344, glyphname := "uniE000", anchorPoints := [],
    boundingBox := (0, 0, 0, 0),
    posSub := [{ sub := "ss01", typ := "AltSubs", data := ["uniF600"] }] }

/-- The substitute glyph (codepoint 62976 = U+F600, outside the SMuFL range,
so it contributes to no sub-table itself). -/
def exGlyphAltSub : Glyph :=
  { unicode := 62976, glyphname := "uniF600", anchorPoints := [],
    boundingBox := (0, 0, 0, 0), posSub := [] }

def exTable6 : GlyphTable := [("U+E000", "noteheadBlack"), ("U+F600", "noteheadBlackAlt")]

def exFont6 : Font :=
  { fontname := "Sebastian", version := "1.0",
    glyphs := [exGlyphAltBase, exGlyphAltSub],
    byName := fun n => if n = "uniF600" then some exGlyphAltSub else none }

/-- The metadata document of `exFont6`: the glyphsWithAlternates entry binds
the canonical name to the one-key dict `{'alternates': [...]}`. -/
def exDoc6 : List (String × Val) :=
  [("fontName", .s "Sebastian"), ("fontVersion", .s "1.0"),
   ("glyphsWithAlternates", .dict [("noteheadBlack",
      .dict [("alternates", .arr [.dict [("codepoint", .s "U+F600"),
                                          ("name", .s "noteheadBlackAlt")]])])]),
   ("glyphBBoxes", .dict [("noteheadBlack",
      .dict [("bBoxNE", .arr [.num 0, .num 0]), ("bBoxSW", .arr [.num 0, .num 0])])])]

/-- A glyph with two 'Ligature' rules (component lists ["a","b"] then
["c","d"]). -/
def exGlyphLig : Glyph :=
  { unicode := 57345, glyphname := "uniE001", anchorPoints := [],
    boundingBox := (0, 0, 0, 0),
    posSub := [{ sub := "liga1", typ := "Ligature", data := ["a", "b"] },
               { sub := "liga2", typ := "Ligature", data := ["c", "d"] }] }

def exTable7 : GlyphTable := [("U+E001", "ligGlyph")]

def exFont7 : Font :=
  { fontname := "Sebastian", version := "1.0", glyphs := [exGlyphLig],
    byName := fun _ => none }

/-- A SMuFL-range glyph whose codepoint has no entry in an empty table. -/
def cexGlyph10 : Glyph :=
  { unicode := 57344, glyphname := "gg", anchorPoints := [],
    boundingBox := (0, 0, 0, 0), posSub := [] }

def cexFont10 : Font :=
  { fontname := "Sebastian", version := "1.0", glyphs := [cexGlyph10],
    byName := fun _ => none }


/-- The engravingDefaults segment of an assembled document: present only when
the attribute is a non-empty mapping (Python truthiness of `None`/`{}`). -/
def edSegment (defaults : Option (List (String × ℚ))) : List (String × Val) :=
  match defaults with
  | some l => if l.isEmpty then [] else [("engravingDefaults", edVal l)]
  | none => []

set_option maxRecDepth 100000

/-! Helper lemmas -/

/-- The integer division used by `pyRoundInt` is the floor of the rational. -/
theorem fdiv_num_den_eq_floor (x : ℚ) : x.num.fdiv x.den = ⌊x⌋ := by
  rw [Int.fdiv_eq_ediv _ (by exact_mod_cast Nat.zero_le x.den)]
  exact Rat.floor_def.symm

/-- `pyRoundInt` in its textbook form: round half to even. -/
theorem pyRoundInt_eq (x : ℚ) :
    pyRoundInt x =
      if x - ⌊x⌋ < 1/2 then ⌊x⌋
      else if 1/2 < x - ⌊x⌋ then ⌊x⌋ + 1
      else if ⌊x⌋ % 2 = 0 then ⌊x⌋ else ⌊x⌋ + 1 := by
  unfold pyRoundInt
  simp only [fdiv_num_den_eq_floor]
  have hden : (0:ℚ) < (x.den : ℚ) := by exact_mod_cast x.pos
  have h2den : (0:ℚ) < 2 * x.den := by positivity
  have hnum : ((x.num : ℚ)) = x * x.den := by
    have hd0 : ((x.den : ℚ)) ≠ 0 := ne_of_gt hden
    have h := Rat.num_div_den x
    rw [div_eq_iff hd0] at h
    exact h
  have e1 : (x - (⌊x⌋:ℚ)) * (2 * x.den) = 2 * ((x.num:ℚ) - (⌊x⌋:ℚ) * (x.den:ℚ)) := by
    rw [hnum]; ring
  have key1 : (2 * (x.num - ⌊x⌋ * x.den) < (x.den : ℤ)) ↔ (x - ⌊x⌋ < 1/2) := by
    rw [show ((2 * (x.num - ⌊x⌋ * x.den) < (x.den : ℤ)) ↔
        (2 * ((x.num:ℚ) - (⌊x⌋:ℚ) * (x.den:ℚ)) < (x.den:ℚ))) from by
      constructor <;> intro h <;> exact_mod_cast h]
    rw [← e1]
    constructor <;> intro h <;> nlinarith [h, hden]
  have key2 : ((x.den : ℤ) < 2 * (x.num - ⌊x⌋ * x.den)) ↔ ((1:ℚ)/2 < x - ⌊x⌋) := by
    rw [show (((x.den : ℤ) < 2 * (x.num - ⌊x⌋ * x.den)) ↔
        ((x.den:ℚ) < 2 * ((x.num:ℚ) - (⌊x⌋:ℚ) * (x.den:ℚ)))) from by
      constructor <;> intro h <;> exact_mod_cast h]
    rw [← e1]
    constructor <;> intro h <;> nlinarith [h, hden]
  simp only [key1, key2]

theorem dlookup_dinsert_self {α : Type} (m : List (String × α)) (k : String) (v : α) :
    dlookup (dinsert m k v) k = some v := by
  induction m with
  | nil => simp [dinsert, dlookup]
  | cons p rest ih =>
    by_cases h : p.1 = k
    · simp [dinsert, dlookup, h]
    · simp [dinsert, dlookup, h, ih]

theorem dlookup_dinsert_ne {α : Type} (m : List (String × α)) (k k' : String) (v : α)
    (h : k' ≠ k) : dlookup (dinsert m k v) k' = dlookup m k' := by
  induction m with
  | nil =>
    simp only [dinsert, dlookup]
    rw [if_neg (fun hh => h hh.symm)]
  | cons p rest ih =>
    by_cases hp : p.1 = k
    · subst hp
      simp only [dinsert, if_pos rfl, dlookup]
      rw [if_neg (fun hh => h hh.symm), if_neg (fun hh => h hh.symm)]
    · simp only [dinsert, if_neg hp, dlookup]
      by_cases hk : p.1 = k'
      · simp [hk]
      · simp [hk, ih]

theorem mem_keys_dinsert {α : Type} (m : List (String × α)) (k k' : String) (v : α)
    (h : k' ∈ keys (dinsert m k v)) : k' = k ∨ k' ∈ keys m := by
  induction m with
  | nil => simpa [dinsert, keys] using h
  | cons p rest ih =>
    by_cases hp : p.1 = k
    · simp only [dinsert, if_pos hp, keys, List.map_cons, List.mem_cons] at h
      rcases h with h | h
      · exact Or.inl h
      · exact Or.inr (by simp [keys, List.mem_cons]; right; simpa [keys] using h)
    · simp only [dinsert, if_neg hp, keys, List.map_cons, List.mem_cons] at h
      rcases h with h | h
      · exact Or.inr (by simp [keys, h])
      · rcases ih (by simpa [keys] using h) with h' | h'
        · exact Or.inl h'
        · exact Or.inr (by simp [keys] at h' ⊢; exact Or.inr h')

theorem dlookup_eq_none {α : Type} (m : List (String × α)) (k : String)
    (h : k ∉ keys m) : dlookup m k = none := by
  induction m with
  | nil => rfl
  | cons p rest ih =>
    simp only [keys, List.map_cons, List.mem_cons, not_or] at h
    simp only [dlookup]
    rw [if_neg (fun hh => h.1 hh.symm)]
    exact ih (by simpa [keys] using h.2)

theorem dlookup_isSome_of_mem_keys {α : Type} (m : List (String × α)) (k : String)
    (h : k ∈ keys m) : (dlookup m k).isSome := by
  induction m with
  | nil => simp [keys] at h
  | cons p rest ih =>
    simp only [keys, List.map_cons, List.mem_cons] at h
    by_cases hp : p.1 = k
    · simp [dlookup, hp]
    · rcases h with h | h
      · exact absurd h.symm hp
      · simp only [dlookup, if_neg hp]
        exact ih (by simpa [keys] using h)

theorem dinsert_dinsert_same {α : Type} (m : List (String × α)) (k : String) (v w : α) :
    dinsert (dinsert m k v) k w = dinsert m k w := by
  induction m with
  | nil => simp [dinsert]
  | cons p rest ih =>
    by_cases hp : p.1 = k
    · simp [dinsert, hp]
    · simp [dinsert, hp, ih]

theorem hexCharVal_toUpper_digitChar (d : ℕ) (h : d < 16) :
    hexCharVal (Char.toUpper (Nat.digitChar d)) = d := by
  interval_cases d <;> decide

theorem parseHexList_append_single (l : List Char) (c : Char) :
    parseHexList (l ++ [c]) = 16 * parseHexList l + hexCharVal c := by
  simp [parseHexList, List.foldl_append]

theorem parseHexList_hexCharsF_upper (fuel n : ℕ) (hn : n < fuel) :
    parseHexList ((hexCharsF n fuel).map Char.toUpper) = n := by
  induction fuel generalizing n with
  | zero => omega
  | succ fuel ih =>
    rw [hexCharsF]
    by_cases h : n < 16
    · rw [if_pos h]
      simp only [List.map_cons, List.map_nil, parseHexList, List.foldl_cons, List.foldl_nil]
      rw [Nat.mul_zero, Nat.zero_add]
      exact hexCharVal_toUpper_digitChar n h
    · rw [if_neg h]
      rw [List.map_append, List.map_singleton, parseHexList_append_single]
      rw [ih (n / 16) (by omega)]
      rw [hexCharVal_toUpper_digitChar (n % 16) (Nat.mod_lt _ (by omega))]
      omega

theorem parseHexList_hexChars_upper (n : ℕ) :
    parseHexList ((hexChars n).map Char.toUpper) = n :=
  parseHexList_hexCharsF_upper (n + 1) n (Nat.lt_succ_self n)

/-- C8: for every codepoint `c` (all naturals, hence in particular every valid
Unicode scalar value), `format_codepoint(c)` is 'U+' followed by the uppercase
hex digits of `c`, parsing those digits back with `int(s[2:], 16)` recovers
`c`, and in particular `format_codepoint(57344) = 'U+E000'` and
`format_codepoint(62463) = 'U+F3FF'`. -/
theorem claim_C8 :
    (∀ c : ℕ, parseCodepoint (Ffsmufl.format_codepoint (c : ℤ)) = c) ∧
    Ffsmufl.format_codepoint 57344 = "U+E000" ∧
    Ffsmufl.format_codepoint 62463 = "U+F3FF" := by
  refine ⟨fun c => ?_, by decide, by decide⟩
  unfold Ffsmufl.format_codepoint hexSliceUpper
  rw [if_neg (by exact_mod_cast Int.not_lt.mpr (Int.natCast_nonneg c))]
  unfold parseCodepoint
  rw [show ("U+" ++ String.mk ((hexChars ((c:ℤ).toNat)).map Char.toUpper)).data
      = 'U' :: '+' :: ((hexChars ((c:ℤ).toNat)).map Char.toUpper) from rfl]
  rw [List.drop_succ_cons, List.drop_succ_cons, List.drop_zero]
  rw [show ((c:ℤ)).toNat = c from rfl]
  exact parseHexList_hexChars_upper c

/-- C9: `SmuflFont.save` raises `PermissionError` exactly when the font was
opened read-only and no explicit destination argument is given, and in that
case the underlying fontforge save is not invoked; otherwise no
`PermissionError` is raised and the call is delegated with the given
arguments. -/
theorem claim_C9 (read_only : Bool) (args : List String) :
    (Ffsmufl.save read_only args =
        .error (.permissionError "Font is opened in read-only mode.") ↔
      read_only = true ∧ args = []) ∧
    (¬(read_only = true ∧ args = []) → Ffsmufl.save read_only args = .ok args) := by
  cases read_only <;> cases args <;> simp [Ffsmufl.save]

/-- C9 witness: at `read_only = true`, `args = []` the guard fires. -/
theorem claim_C9_witness :
    (Ffsmufl.save true [] =
        .error (.permissionError "Font is opened in read-only mode.") ↔
      true = true ∧ ([] : List String) = []) ∧
    (¬(true = true ∧ ([] : List String) = []) → Ffsmufl.save true [] = .ok []) :=
  claim_C9 true []

/-- `smufl_canonical_name` with the default `fallback=True` never raises and
computes `canonicalNameFB`. -/
theorem smufl_canonical_name_true (table : GlyphTable) (g : Glyph) :
    FfSmuflMetadata.smufl_canonical_name table g true = .ok (canonicalNameFB table g) := by
  unfold FfSmuflMetadata.smufl_canonical_name canonicalNameFB FfSmuflMetadata.smufl_codepoint
  cases dlookup table ("U+" ++ hexSliceUpper g.unicode) <;> simp

/-- `canonical_glyphname` (ffsmufl.py) succeeds exactly on a table hit, and
then agrees with `canonicalNameFB`. -/
theorem canonical_glyphname_ok (table : GlyphTable) (u : ℤ) (fb : Bool) (nm : String)
    (h : Ffsmufl.canonical_glyphname table u fb = .ok nm) :
    dlookup table (Ffsmufl.format_codepoint u) = some nm := by
  unfold Ffsmufl.canonical_glyphname at h
  cases hl : dlookup table (Ffsmufl.format_codepoint u) with
  | some v => rw [hl] at h; cases h; rfl
  | none =>
    rw [hl] at h
    cases fb <;> simp at h

theorem canonicalNameFB_of_hit (table : GlyphTable) (g : Glyph) (nm : String)
    (h : dlookup table ("U+" ++ hexSliceUpper g.unicode) = some nm) :
    canonicalNameFB table g = nm := by
  unfold canonicalNameFB
  rw [h]

theorem dlookup_append {α : Type} (m1 m2 : List (String × α)) (k : String) :
    dlookup (m1 ++ m2) k =
      match dlookup m1 k with
      | some v => some v
      | none => dlookup m2 k := by
  induction m1 with
  | nil => simp [dlookup]
  | cons p rest ih =>
    by_cases h : p.1 = k
    · simp [dlookup, h]
    · simp [dlookup, h, ih]

/-! Lemmas on the inner anchor loop (stated for the ff_smufl_metadata.py
version; the loops in the other two files are related to it below). -/

theorem mem_keys_dinsert_iff {α : Type} (m : List (String × α)) (k k' : String) (v : α) :
    k' ∈ keys (dinsert m k v) ↔ k' = k ∨ k' ∈ keys m := by
  induction m with
  | nil => simp [dinsert, keys]
  | cons p rest ih =>
    by_cases hp : p.1 = k
    · simp only [dinsert, if_pos hp, keys, List.map_cons, List.mem_cons]
      rw [← hp]
      tauto
    · simp only [dinsert, if_neg hp, keys, List.map_cons, List.mem_cons]
      rw [show (List.map Prod.fst (dinsert rest k v)) = keys (dinsert rest k v) from rfl, ih]
      tauto

theorem anchorLoop_mem_keys (aps : List AnchorPoint)
    (acc : List (String × (ℚ × ℚ))) (an : String) :
    an ∈ keys (FfSmuflMetadata.anchorLoop aps acc) ↔
      an ∈ keys acc ∨ ∃ a ∈ aps, a.name = an ∧ a.name ∈ SMUFL_ANCHOR_NAMES := by
  induction aps generalizing acc with
  | nil => simp [FfSmuflMetadata.anchorLoop]
  | cons a rest ih =>
    rw [FfSmuflMetadata.anchorLoop]
    by_cases hv : a.name ∈ SMUFL_ANCHOR_NAMES
    · rw [if_pos hv, ih, mem_keys_dinsert_iff]
      constructor
      · rintro ((rfl | h) | ⟨b, hb, hbn, hbv⟩)
        · exact Or.inr ⟨a, by simp, rfl, hv⟩
        · exact Or.inl h
        · exact Or.inr ⟨b, by simp [hb], hbn, hbv⟩
      · rintro (h | ⟨b, hb, hbn, hbv⟩)
        · exact Or.inl (Or.inr h)
        · rcases List.mem_cons.mp hb with rfl | hb'
          · exact Or.inl (Or.inl hbn.symm)
          · exact Or.inr ⟨b, hb', hbn, hbv⟩
    · rw [if_neg hv, ih]
      constructor
      · rintro (h | ⟨b, hb, hbn, hbv⟩)
        · exact Or.inl h
        · exact Or.inr ⟨b, by simp [hb], hbn, hbv⟩
      · rintro (h | ⟨b, hb, hbn, hbv⟩)
        · exact Or.inl h
        · rcases List.mem_cons.mp hb with rfl | hb'
          · exact absurd hbv hv
          · exact Or.inr ⟨b, hb', hbn, hbv⟩

theorem anchorLoop_dlookup_not_mem (aps : List AnchorPoint)
    (acc : List (String × (ℚ × ℚ))) (an : String)
    (h : ∀ a ∈ aps, a.name ≠ an) :
    dlookup (FfSmuflMetadata.anchorLoop aps acc) an = dlookup acc an := by
  induction aps generalizing acc with
  | nil => rfl
  | cons a rest ih =>
    rw [FfSmuflMetadata.anchorLoop]
    by_cases hv : a.name ∈ SMUFL_ANCHOR_NAMES
    · rw [if_pos hv, ih _ (fun b hb => h b (by simp [hb]))]
      exact dlookup_dinsert_ne _ _ _ _ (fun he => h a (by simp) he.symm)
    · rw [if_neg hv]
      exact ih _ (fun b hb => h b (by simp [hb]))

theorem anchorLoop_dlookup_target (aps : List AnchorPoint)
    (acc : List (String × (ℚ × ℚ))) (a : AnchorPoint)
    (ha : a ∈ aps) (hv : a.name ∈ SMUFL_ANCHOR_NAMES)
    (hn : (aps.map AnchorPoint.name).Nodup) :
    dlookup (FfSmuflMetadata.anchorLoop aps acc) a.name =
      some (FfSmuflMetadata.to_spaces a.x, FfSmuflMetadata.to_spaces a.y) := by
  induction aps generalizing acc with
  | nil => cases ha
  | cons b rest ih =>
    rw [List.map_cons, List.nodup_cons] at hn
    rw [FfSmuflMetadata.anchorLoop]
    rcases List.mem_cons.mp ha with rfl | ha'
    · rw [if_pos hv]
      have hrest : ∀ c ∈ rest, c.name ≠ a.name := by
        intro c hc he
        exact hn.1 (he ▸ List.mem_map_of_mem AnchorPoint.name hc)
      rw [anchorLoop_dlookup_not_mem rest _ _ hrest]
      exact dlookup_dinsert_self _ _ _
    · by_cases hbv : b.name ∈ SMUFL_ANCHOR_NAMES
      · rw [if_pos hbv]
        exact ih _ ha' hn.2
      · rw [if_neg hbv]
        exact ih _ ha' hn.2

theorem mem_dinsert {α : Type} (m : List (String × α)) (k : String) (v : α)
    (p : String × α) (h : p ∈ dinsert m k v) : p = (k, v) ∨ p ∈ m := by
  induction m with
  | nil => simpa [dinsert] using h
  | cons q rest ih =>
    by_cases hq : q.1 = k
    · rw [dinsert, if_pos hq] at h
      rcases List.mem_cons.mp h with rfl | h'
      · exact Or.inl rfl
      · exact Or.inr (List.mem_cons_of_mem _ h')
    · rw [dinsert, if_neg hq] at h
      rcases List.mem_cons.mp h with rfl | h'
      · exact Or.inr (List.mem_cons_self _ _)
      · rcases ih h' with h'' | h''
        · exact Or.inl h''
        · exact Or.inr (List.mem_cons_of_mem _ h'')

/-! Lemmas on the glyph loop of glyphsWithAnchors (ff_smufl_metadata.py). -/

theorem glyphsWithAnchorsGo_keys (table : GlyphTable) (gs : List Glyph)
    (acc : AnchTbl) (k : String)
    (h : k ∈ keys (FfSmuflMetadata.glyphsWithAnchorsGo table gs acc)) :
    k ∈ keys acc ∨ ∃ g ∈ gs, canonicalNameFB table g = k := by
  induction gs generalizing acc with
  | nil => exact Or.inl h
  | cons g rest ih =>
    simp only [FfSmuflMetadata.glyphsWithAnchorsGo] at h
    by_cases hca : (FfSmuflMetadata.anchorLoop g.anchorPoints []).isEmpty = true
    · rw [if_pos hca] at h
      rcases ih _ h with h' | ⟨b, hb, hbk⟩
      · exact Or.inl h'
      · exact Or.inr ⟨b, List.mem_cons_of_mem _ hb, hbk⟩
    · rw [if_neg hca] at h
      rcases ih _ h with h' | ⟨b, hb, hbk⟩
      · rcases (mem_keys_dinsert_iff _ _ _ _).mp h' with rfl | h''
        · exact Or.inr ⟨g, List.mem_cons_self _ _, rfl⟩
        · exact Or.inl h''
      · exact Or.inr ⟨b, List.mem_cons_of_mem _ hb, hbk⟩

theorem glyphsWithAnchorsGo_dlookup_not_mem (table : GlyphTable) (gs : List Glyph)
    (acc : AnchTbl) (k : String)
    (h : ∀ g ∈ gs, canonicalNameFB table g ≠ k) :
    dlookup (FfSmuflMetadata.glyphsWithAnchorsGo table gs acc) k = dlookup acc k := by
  induction gs generalizing acc with
  | nil => rfl
  | cons g rest ih =>
    simp only [FfSmuflMetadata.glyphsWithAnchorsGo]
    by_cases hca : (FfSmuflMetadata.anchorLoop g.anchorPoints []).isEmpty = true
    · rw [if_pos hca]
      exact ih _ (fun b hb => h b (List.mem_cons_of_mem _ hb))
    · rw [if_neg hca]
      rw [ih _ (fun b hb => h b (List.mem_cons_of_mem _ hb))]
      exact dlookup_dinsert_ne _ _ _ _
        (fun he => h g (List.mem_cons_self _ _) he.symm)

theorem glyphsWithAnchorsGo_dlookup_target (table : GlyphTable) (gs : List Glyph)
    (acc : AnchTbl) (g : Glyph)
    (hg : g ∈ gs) (hn : (gs.map (canonicalNameFB table)).Nodup)
    (hacc : canonicalNameFB table g ∉ keys acc) :
    dlookup (FfSmuflMetadata.glyphsWithAnchorsGo table gs acc) (canonicalNameFB table g) =
      if (FfSmuflMetadata.anchorLoop g.anchorPoints []).isEmpty = true then none
      else some (FfSmuflMetadata.anchorLoop g.anchorPoints []) := by
  induction gs generalizing acc with
  | nil => cases hg
  | cons b rest ih =>
    rw [List.map_cons, List.nodup_cons] at hn
    simp only [FfSmuflMetadata.glyphsWithAnchorsGo]
    rcases List.mem_cons.mp hg with rfl | hg'
    · have hrest : ∀ c ∈ rest, canonicalNameFB table c ≠ canonicalNameFB table g :=
        fun c hc he => hn.1 (he ▸ List.mem_map_of_mem _ hc)
      by_cases hca : (FfSmuflMetadata.anchorLoop g.anchorPoints []).isEmpty = true
      · rw [if_pos hca, if_pos hca]
        rw [glyphsWithAnchorsGo_dlookup_not_mem _ rest acc _ hrest]
        exact dlookup_eq_none _ _ hacc
      · rw [if_neg hca, if_neg hca]
        rw [glyphsWithAnchorsGo_dlookup_not_mem _ rest _ _ hrest]
        exact dlookup_dinsert_self _ _ _
    · have hbn : canonicalNameFB table b ≠ canonicalNameFB table g :=
        fun he => hn.1 (he ▸ List.mem_map_of_mem _ hg')
      by_cases hca : (FfSmuflMetadata.anchorLoop b.anchorPoints []).isEmpty = true
      · rw [if_pos hca]
        exact ih _ hg' hn.2 hacc
      · rw [if_neg hca]
        refine ih _ hg' hn.2 ?_
        intro hk
        rcases (mem_keys_dinsert_iff _ _ _ _).mp hk with he | he
        · exact hbn he.symm
        · exact hacc he

theorem glyphsWithAnchorsGo_all_empty (table : GlyphTable) (gs : List Glyph)
    (acc : AnchTbl)
    (h : ∀ g ∈ gs, FfSmuflMetadata.anchorLoop g.anchorPoints [] = []) :
    FfSmuflMetadata.glyphsWithAnchorsGo table gs acc = acc := by
  induction gs generalizing acc with
  | nil => rfl
  | cons g rest ih =>
    simp only [FfSmuflMetadata.glyphsWithAnchorsGo]
    rw [if_pos (by rw [h g (List.mem_cons_self _ _)]; rfl)]
    exact ih _ (fun b hb => h b (List.mem_cons_of_mem _ hb))

/-! Lemmas on the glyph loop of glyphBBoxes (ff_smufl_metadata.py). -/

theorem glyphBBoxesGo_keys (table : GlyphTable) (gs : List Glyph)
    (acc : BBoxTbl) (k : String)
    (h : k ∈ keys (FfSmuflMetadata.glyphBBoxesGo table gs acc)) :
    k ∈ keys acc ∨ ∃ g ∈ gs, canonicalNameFB table g = k := by
  induction gs generalizing acc with
  | nil => exact Or.inl h
  | cons g rest ih =>
    simp only [FfSmuflMetadata.glyphBBoxesGo] at h
    rcases ih _ h with h' | ⟨b, hb, hbk⟩
    · rcases (mem_keys_dinsert_iff _ _ _ _).mp h' with rfl | h''
      · exact Or.inr ⟨g, List.mem_cons_self _ _, rfl⟩
      · exact Or.inl h''
    · exact Or.inr ⟨b, List.mem_cons_of_mem _ hb, hbk⟩

theorem glyphBBoxesGo_dlookup_not_mem (table : GlyphTable) (gs : List Glyph)
    (acc : BBoxTbl) (k : String)
    (h : ∀ g ∈ gs, canonicalNameFB table g ≠ k) :
    dlookup (FfSmuflMetadata.glyphBBoxesGo table gs acc) k = dlookup acc k := by
  induction gs generalizing acc with
  | nil => rfl
  | cons g rest ih =>
    simp only [FfSmuflMetadata.glyphBBoxesGo]
    rw [ih _ (fun b hb => h b (List.mem_cons_of_mem _ hb))]
    exact dlookup_dinsert_ne _ _ _ _
      (fun he => h g (List.mem_cons_self _ _) he.symm)

theorem glyphBBoxesGo_dlookup_target (table : GlyphTable) (gs : List Glyph)
    (acc : BBoxTbl) (g : Glyph)
    (hg : g ∈ gs) (hn : (gs.map (canonicalNameFB table)).Nodup) :
    dlookup (FfSmuflMetadata.glyphBBoxesGo table gs acc) (canonicalNameFB table g) =
      some [("bBoxNE", (FfSmuflMetadata.to_spaces g.boundingBox.2.2.1,
                        FfSmuflMetadata.to_spaces g.boundingBox.2.2.2)),
            ("bBoxSW", (FfSmuflMetadata.to_spaces g.boundingBox.1,
                        FfSmuflMetadata.to_spaces g.boundingBox.2.1))] := by
  induction gs generalizing acc with
  | nil => cases hg
  | cons b rest ih =>
    rw [List.map_cons, List.nodup_cons] at hn
    simp only [FfSmuflMetadata.glyphBBoxesGo]
    rcases List.mem_cons.mp hg with rfl | hg'
    · have hrest : ∀ c ∈ rest, canonicalNameFB table c ≠ canonicalNameFB table g :=
        fun c hc he => hn.1 (he ▸ List.mem_map_of_mem _ hc)
      rw [glyphBBoxesGo_dlookup_not_mem _ rest _ _ hrest]
      exact dlookup_dinsert_self _ _ _
    · exact ih _ hg' hn.2

/-! Lemmas on the ligature rule loop and glyph loop (ff_smufl_metadata.py). -/

theorem ligRulesLoop_eq (nm cp : String) (rs : List PSTable) (acc : LigTbl) :
    FfSmuflMetadata.ligRulesLoop nm cp rs acc =
      match rs.getLast? with
      | none => acc
      | some r => dinsert acc nm { codepoint := cp, componentGlyphs := r.data } := by
  induction rs generalizing acc with
  | nil => rfl
  | cons r rest ih =>
    rw [FfSmuflMetadata.ligRulesLoop, ih]
    cases rest with
    | nil => rfl
    | cons r2 rest2 =>
      rw [List.getLast?_cons_cons]
      cases hL : (r2 :: rest2).getLast? with
      | none => exact absurd hL (by simp)
      | some r' => exact dinsert_dinsert_same _ _ _ _

theorem ligaturesGo_keys (table : GlyphTable) (gs : List Glyph)
    (acc : LigTbl) (k : String)
    (h : k ∈ keys (FfSmuflMetadata.ligaturesGo table gs acc)) :
    k ∈ keys acc ∨ ∃ g ∈ gs, canonicalNameFB table g = k := by
  induction gs generalizing acc with
  | nil => exact Or.inl h
  | cons g rest ih =>
    simp only [FfSmuflMetadata.ligaturesGo] at h
    rcases ih _ h with h' | ⟨b, hb, hbk⟩
    · rw [ligRulesLoop_eq] at h'
      cases hL : (g.posSub.filter (fun t => t.typ == "Ligature")).getLast? with
      | none =>
        rw [hL] at h'
        exact Or.inl h'
      | some r =>
        rw [hL] at h'
        rcases (mem_keys_dinsert_iff _ _ _ _).mp h' with rfl | h''
        · exact Or.inr ⟨g, List.mem_cons_self _ _, rfl⟩
        · exact Or.inl h''
    · exact Or.inr ⟨b, List.mem_cons_of_mem _ hb, hbk⟩

theorem ligaturesGo_dlookup_not_mem (table : GlyphTable) (gs : List Glyph)
    (acc : LigTbl) (k : String)
    (h : ∀ g ∈ gs, canonicalNameFB table g ≠ k) :
    dlookup (FfSmuflMetadata.ligaturesGo table gs acc) k = dlookup acc k := by
  induction gs generalizing acc with
  | nil => rfl
  | cons g rest ih =>
    simp only [FfSmuflMetadata.ligaturesGo]
    rw [ih _ (fun b hb => h b (List.mem_cons_of_mem _ hb)), ligRulesLoop_eq]
    cases hL : (g.posSub.filter (fun t => t.typ == "Ligature")).getLast? with
    | none => rfl
    | some r =>
      exact dlookup_dinsert_ne _ _ _ _
        (fun he => h g (List.mem_cons_self _ _) he.symm)

theorem ligaturesGo_dlookup_target (table : GlyphTable) (gs : List Glyph)
    (acc : LigTbl) (g : Glyph)
    (hg : g ∈ gs) (hn : (gs.map (canonicalNameFB table)).Nodup)
    (hacc : canonicalNameFB table g ∉ keys acc) :
    dlookup (FfSmuflMetadata.ligaturesGo table gs acc) (canonicalNameFB table g) =
      match (g.posSub.filter (fun t => t.typ == "Ligature")).getLast? with
      | none => none
      | some r => some { codepoint := FfSmuflMetadata.smufl_codepoint g,
                         componentGlyphs := r.data } := by
  induction gs generalizing acc with
  | nil => cases hg
  | cons b rest ih =>
    rw [List.map_cons, List.nodup_cons] at hn
    simp only [FfSmuflMetadata.ligaturesGo]
    rcases List.mem_cons.mp hg with rfl | hg'
    · have hrest : ∀ c ∈ rest, canonicalNameFB table c ≠ canonicalNameFB table g :=
        fun c hc he => hn.1 (he ▸ List.mem_map_of_mem _ hc)
      rw [ligaturesGo_dlookup_not_mem _ rest _ _ hrest, ligRulesLoop_eq]
      cases hL : (g.posSub.filter (fun t => t.typ == "Ligature")).getLast? with
      | none => exact dlookup_eq_none _ _ hacc
      | some r => exact dlookup_dinsert_self _ _ _
    · have hbn : canonicalNameFB table b ≠ canonicalNameFB table g :=
        fun he => hn.1 (he ▸ List.mem_map_of_mem _ hg')
      refine ih _ hg' hn.2 ?_
      rw [ligRulesLoop_eq]
      cases hL : (b.posSub.filter (fun t => t.typ == "Ligature")).getLast? with
      | none => exact hacc
      | some r =>
        intro hk
        rcases (mem_keys_dinsert_iff _ _ _ _).mp hk with he | he
        · exact hbn he.symm
        · exact hacc he

theorem ligaturesGo_values (table : GlyphTable) (gs : List Glyph)
    (acc : LigTbl) (p : String × LigRecord)
    (hp : p ∈ FfSmuflMetadata.ligaturesGo table gs acc) :
    p ∈ acc ∨ ∃ g ∈ gs, ∃ r,
      (g.posSub.filter (fun t => t.typ == "Ligature")).getLast? = some r ∧
      p = (canonicalNameFB table g,
           { codepoint := FfSmuflMetadata.smufl_codepoint g, componentGlyphs := r.data }) := by
  induction gs generalizing acc with
  | nil => exact Or.inl hp
  | cons g rest ih =>
    simp only [FfSmuflMetadata.ligaturesGo] at hp
    rcases ih _ hp with h' | ⟨b, hb, r, hr, rfl⟩
    · rw [ligRulesLoop_eq] at h'
      cases hL : (g.posSub.filter (fun t => t.typ == "Ligature")).getLast? with
      | none =>
        rw [hL] at h'
        exact Or.inl h'
      | some r =>
        rw [hL] at h'
        rcases mem_dinsert _ _ _ _ h' with rfl | h''
        · exact Or.inr ⟨g, List.mem_cons_self _ _, r, hL, rfl⟩
        · exact Or.inl h''
    · exact Or.inr ⟨b, List.mem_cons_of_mem _ hb, r, hr, rfl⟩

/-! Lemmas on the glyph loop of glyphsWithAlternates (ff_smufl_metadata.py). -/

theorem glyphsWithAlternatesGo_cons_ok (table : GlyphTable) (font : Font)
    (g : Glyph) (rest : List Glyph) (acc : AltTbl) (recs : List AltRecord)
    (hr : FfSmuflMetadata.altRecsOfGlyph table font g = .ok recs) :
    FfSmuflMetadata.glyphsWithAlternatesGo table font (g :: rest) acc =
      if recs.isEmpty = true then
        FfSmuflMetadata.glyphsWithAlternatesGo table font rest acc
      else
        FfSmuflMetadata.glyphsWithAlternatesGo table font rest
          (dinsert acc (canonicalNameFB table g) [("alternates", recs)]) := by
  simp only [FfSmuflMetadata.glyphsWithAlternatesGo]
  rw [hr]

theorem glyphsWithAlternatesGo_cons_err (table : GlyphTable) (font : Font)
    (g : Glyph) (rest : List Glyph) (acc : AltTbl) (e : PyExc)
    (hr : FfSmuflMetadata.altRecsOfGlyph table font g = .error e) :
    FfSmuflMetadata.glyphsWithAlternatesGo table font (g :: rest) acc = .error e := by
  simp only [FfSmuflMetadata.glyphsWithAlternatesGo]
  rw [hr]

theorem glyphsWithAlternatesGo_keys (table : GlyphTable) (font : Font)
    (gs : List Glyph) (acc m : AltTbl) (k : String)
    (h : FfSmuflMetadata.glyphsWithAlternatesGo table font gs acc = .ok m)
    (hk : k ∈ keys m) :
    k ∈ keys acc ∨ ∃ g ∈ gs, canonicalNameFB table g = k := by
  induction gs generalizing acc with
  | nil =>
    cases h
    exact Or.inl hk
  | cons g rest ih =>
    cases hr : FfSmuflMetadata.altRecsOfGlyph table font g with
    | error e => rw [glyphsWithAlternatesGo_cons_err _ _ _ _ _ _ hr] at h; cases h
    | ok recs =>
      rw [glyphsWithAlternatesGo_cons_ok _ _ _ _ _ _ hr] at h
      by_cases hre : recs.isEmpty = true
      · rw [if_pos hre] at h
        rcases ih _ h with h' | ⟨b, hb, hbk⟩
        · exact Or.inl h'
        · exact Or.inr ⟨b, List.mem_cons_of_mem _ hb, hbk⟩
      · rw [if_neg hre] at h
        rcases ih _ h with h' | ⟨b, hb, hbk⟩
        · rcases (mem_keys_dinsert_iff _ _ _ _).mp h' with rfl | h''
          · exact Or.inr ⟨g, List.mem_cons_self _ _, rfl⟩
          · exact Or.inl h''
        · exact Or.inr ⟨b, List.mem_cons_of_mem _ hb, hbk⟩

theorem glyphsWithAlternatesGo_dlookup_not_mem (table : GlyphTable) (font : Font)
    (gs : List Glyph) (acc m : AltTbl) (k : String)
    (h : FfSmuflMetadata.glyphsWithAlternatesGo table font gs acc = .ok m)
    (hk : ∀ g ∈ gs, canonicalNameFB table g ≠ k) :
    dlookup m k = dlookup acc k := by
  induction gs generalizing acc with
  | nil =>
    cases h
    rfl
  | cons g rest ih =>
    cases hr : FfSmuflMetadata.altRecsOfGlyph table font g with
    | error e => rw [glyphsWithAlternatesGo_cons_err _ _ _ _ _ _ hr] at h; cases h
    | ok recs =>
      rw [glyphsWithAlternatesGo_cons_ok _ _ _ _ _ _ hr] at h
      by_cases hre : recs.isEmpty = true
      · rw [if_pos hre] at h
        exact ih _ h (fun b hb => hk b (List.mem_cons_of_mem _ hb))
      · rw [if_neg hre] at h
        rw [ih _ h (fun b hb => hk b (List.mem_cons_of_mem _ hb))]
        exact dlookup_dinsert_ne _ _ _ _
          (fun he => hk g (List.mem_cons_self _ _) he.symm)

theorem glyphsWithAlternatesGo_dlookup_target (table : GlyphTable) (font : Font)
    (gs : List Glyph) (acc m : AltTbl) (g : Glyph) (recs : List AltRecord)
    (h : FfSmuflMetadata.glyphsWithAlternatesGo table font gs acc = .ok m)
    (hg : g ∈ gs) (hn : (gs.map (canonicalNameFB table)).Nodup)
    (hacc : canonicalNameFB table g ∉ keys acc)
    (hr : FfSmuflMetadata.altRecsOfGlyph table font g = .ok recs) :
    dlookup m (canonicalNameFB table g) =
      if recs.isEmpty = true then none else some [("alternates", recs)] := by
  induction gs generalizing acc with
  | nil => cases hg
  | cons b rest ih =>
    rw [List.map_cons, List.nodup_cons] at hn
    rcases List.mem_cons.mp hg with rfl | hg'
    · rw [glyphsWithAlternatesGo_cons_ok _ _ _ _ _ _ hr] at h
      have hrest : ∀ c ∈ rest, canonicalNameFB table c ≠ canonicalNameFB table g :=
        fun c hc he => hn.1 (he ▸ List.mem_map_of_mem _ hc)
      by_cases hre : recs.isEmpty = true
      · rw [if_pos hre] at h
        rw [if_pos hre, glyphsWithAlternatesGo_dlookup_not_mem _ _ rest _ _ _ h hrest]
        exact dlookup_eq_none _ _ hacc
      · rw [if_neg hre] at h
        rw [if_neg hre, glyphsWithAlternatesGo_dlookup_not_mem _ _ rest _ _ _ h hrest]
        exact dlookup_dinsert_self _ _ _
    · have hbn : canonicalNameFB table b ≠ canonicalNameFB table g :=
        fun he => hn.1 (he ▸ List.mem_map_of_mem _ hg')
      cases hrb : FfSmuflMetadata.altRecsOfGlyph table font b with
      | error e => rw [glyphsWithAlternatesGo_cons_err _ _ _ _ _ _ hrb] at h; cases h
      | ok recsb =>
        rw [glyphsWithAlternatesGo_cons_ok _ _ _ _ _ _ hrb] at h
        by_cases hreb : recsb.isEmpty = true
        · rw [if_pos hreb] at h
          exact ih _ h hg' hn.2 hacc
        · rw [if_neg hreb] at h
          refine ih _ h hg' hn.2 ?_
          intro hkk
          rcases (mem_keys_dinsert_iff _ _ _ _).mp hkk with he | he
          · exact hbn he.symm
          · exact hacc he

/-! Transfer lemmas: whenever the ffsmufl.py computations succeed (every
canonical-name lookup hits the table), they compute exactly what the
ff_smufl_metadata.py computations produce. -/

theorem anchorLoop_ffs_eq (aps : List AnchorPoint) (acc : List (String × (ℚ × ℚ))) :
    Ffsmufl.anchorLoop aps acc = FfSmuflMetadata.anchorLoop aps acc := by
  induction aps generalizing acc with
  | nil => rfl
  | cons a rest ih =>
    rw [Ffsmufl.anchorLoop, FfSmuflMetadata.anchorLoop]
    by_cases hv : a.name ∈ SMUFL_ANCHOR_NAMES
    · rw [if_pos hv, if_pos hv, ih]
      rfl
    · rw [if_neg hv, if_neg hv, ih]

theorem canonical_glyphname_hit_fb (table : GlyphTable) (g : Glyph) (nm : String)
    (h : Ffsmufl.canonical_glyphname table g.unicode true = .ok nm) :
    canonicalNameFB table g = nm :=
  canonicalNameFB_of_hit table g nm (canonical_glyphname_ok table g.unicode true nm h)

theorem anchorsGo_transfer (table : GlyphTable) (gs : List Glyph)
    (acc r : AnchTbl)
    (h : Ffsmufl.anchorsGo table gs acc = .ok r) :
    FfSmuflMetadata.glyphsWithAnchorsGo table gs acc = r := by
  induction gs generalizing acc with
  | nil => cases h; rfl
  | cons g rest ih =>
    simp only [Ffsmufl.anchorsGo, anchorLoop_ffs_eq] at h
    simp only [FfSmuflMetadata.glyphsWithAnchorsGo]
    by_cases hca : (FfSmuflMetadata.anchorLoop g.anchorPoints []).isEmpty = true
    · rw [if_pos hca] at h
      rw [if_pos hca]
      exact ih _ h
    · rw [if_neg hca] at h
      rw [if_neg hca]
      cases hc : Ffsmufl.canonical_glyphname table g.unicode true with
      | error e => rw [hc] at h; cases h
      | ok nm =>
        rw [hc] at h
        rw [canonical_glyphname_hit_fb table g nm hc]
        exact ih _ h

theorem altNamesLoopFSM_cons (table : GlyphTable) (font : Font)
    (n : String) (rest : List String) (sub : Glyph)
    (hb : font.byName n = some sub) :
    FfSmuflMetadata.altNamesLoop table font (n :: rest) =
      match FfSmuflMetadata.altNamesLoop table font rest with
      | .error e => .error e
      | .ok recs => .ok ({ codepoint := FfSmuflMetadata.smufl_codepoint sub,
                           name := canonicalNameFB table sub } :: recs) := by
  simp only [FfSmuflMetadata.altNamesLoop]
  rw [hb]

theorem altNamesLoop_transfer (table : GlyphTable) (font : Font)
    (ns : List String) (recs : List AltRecord)
    (h : Ffsmufl.altNamesLoop table font ns = .ok recs) :
    FfSmuflMetadata.altNamesLoop table font ns = .ok recs := by
  induction ns generalizing recs with
  | nil => cases h; rfl
  | cons n rest ih =>
    simp only [Ffsmufl.altNamesLoop] at h
    split at h
    · cases h
    next sub hb =>
      split at h
      · cases h
      next nm hc =>
        split at h
        · cases h
        next recs' hrest =>
          cases h
          rw [altNamesLoopFSM_cons table font n rest sub hb,
              canonical_glyphname_hit_fb table sub nm hc, ih _ hrest]
          rfl

theorem altRulesLoop_transfer (table : GlyphTable) (font : Font)
    (rs : List PSTable) (recs : List AltRecord)
    (h : Ffsmufl.altRulesLoop table font rs = .ok recs) :
    FfSmuflMetadata.altRulesLoop table font rs = .ok recs := by
  induction rs generalizing recs with
  | nil => cases h; rfl
  | cons r rest ih =>
    simp only [Ffsmufl.altRulesLoop] at h
    simp only [FfSmuflMetadata.altRulesLoop]
    cases h1 : Ffsmufl.altNamesLoop table font r.data with
    | error e => rw [h1] at h; cases h
    | ok recs1 =>
      rw [h1] at h
      cases h2 : Ffsmufl.altRulesLoop table font rest with
      | error e => rw [h2] at h; cases h
      | ok recs2 =>
        rw [h2] at h
        cases h
        rw [altNamesLoop_transfer _ _ _ _ h1, ih _ h2]

theorem altRecsOfGlyph_transfer (table : GlyphTable) (font : Font) (g : Glyph)
    (recs : List AltRecord)
    (h : Ffsmufl.altRecsOfGlyph table font g = .ok recs) :
    FfSmuflMetadata.altRecsOfGlyph table font g = .ok recs :=
  altRulesLoop_transfer table font _ recs h

theorem alternatesGo_transfer (table : GlyphTable) (font : Font)
    (gs : List Glyph) (acc m : AltTbl)
    (h : Ffsmufl.alternatesGo table font gs acc = .ok m) :
    FfSmuflMetadata.glyphsWithAlternatesGo table font gs acc = .ok m := by
  induction gs generalizing acc with
  | nil => cases h; rfl
  | cons g rest ih =>
    simp only [Ffsmufl.alternatesGo] at h
    split at h
    · cases h
    next recs hr =>
      rw [glyphsWithAlternatesGo_cons_ok table font g rest acc recs
            (altRecsOfGlyph_transfer _ _ _ _ hr)]
      split at h
      next hre =>
        rw [if_pos hre]
        exact ih _ h
      next hre =>
        rw [if_neg hre]
        split at h
        · cases h
        next nm hc =>
          rw [canonical_glyphname_hit_fb table g nm hc]
          exact ih _ h

theorem bounding_boxesGo_transfer (table : GlyphTable) (gs : List Glyph)
    (acc r : BBoxTbl)
    (h : Ffsmufl.bounding_boxesGo table gs acc = .ok r) :
    FfSmuflMetadata.glyphBBoxesGo table gs acc = r := by
  induction gs generalizing acc with
  | nil => cases h; rfl
  | cons g rest ih =>
    simp only [Ffsmufl.bounding_boxesGo] at h
    simp only [FfSmuflMetadata.glyphBBoxesGo]
    cases hc : Ffsmufl.canonical_glyphname table g.unicode true with
    | error e => rw [hc] at h; cases h
    | ok nm =>
      rw [hc] at h
      rw [canonical_glyphname_hit_fb table g nm hc]
      exact ih _ h

theorem ligaturesGo_transfer (table : GlyphTable) (gs : List Glyph)
    (acc r : LigTbl)
    (h : Ffsmufl.ligaturesGo table gs acc = .ok r) :
    FfSmuflMetadata.ligaturesGo table gs acc = r := by
  induction gs generalizing acc with
  | nil => cases h; rfl
  | cons g rest ih =>
    simp only [Ffsmufl.ligaturesGo] at h
    simp only [FfSmuflMetadata.ligaturesGo]
    cases hc : Ffsmufl.canonical_glyphname table g.unicode true with
    | error e => rw [hc] at h; cases h
    | ok nm =>
      rw [hc] at h
      rw [canonical_glyphname_hit_fb table g nm hc]
      exact ih _ h

theorem anchors_transfer (table : GlyphTable) (font : Font) (r : AnchTbl)
    (h : Ffsmufl.anchors table font = .ok r) :
    FfSmuflMetadata.glyphsWithAnchors table font = r :=
  anchorsGo_transfer table (characters font) [] r h

theorem alternates_transfer (table : GlyphTable) (font : Font) (m : AltTbl)
    (h : Ffsmufl.alternates table font = .ok m) :
    FfSmuflMetadata.glyphsWithAlternates table font = .ok m :=
  alternatesGo_transfer table font (characters font) [] m h

theorem bounding_boxes_transfer (table : GlyphTable) (font : Font) (r : BBoxTbl)
    (h : Ffsmufl.bounding_boxes table font = .ok r) :
    FfSmuflMetadata.glyphBBoxes table font = r :=
  bounding_boxesGo_transfer table (characters font) [] r h

theorem ligatures_transfer (table : GlyphTable) (font : Font) (r : LigTbl)
    (h : Ffsmufl.ligatures table font = .ok r) :
    FfSmuflMetadata.ligatures table font = r :=
  ligaturesGo_transfer table (characters font) [] r h

theorem asdict_transfer (table : GlyphTable) (font : Font)
    (defaults : Option (List (String × ℚ))) (d : List (String × Val))
    (h : Ffsmufl.asdict table font defaults = .ok d) :
    FfSmuflMetadata.asdict table font defaults = .ok d := by
  simp only [Ffsmufl.asdict] at h
  split at h
  · cases h
  next anch h1 =>
    split at h
    · cases h
    next alts h2 =>
      split at h
      · cases h
      next bboxes h3 =>
        split at h
        · cases h
        next ligs h4 =>
          cases h
          simp only [FfSmuflMetadata.asdict]
          rw [alternates_transfer _ _ _ h2, anchors_transfer _ _ _ h1,
              bounding_boxes_transfer _ _ _ h3, ligatures_transfer _ _ _ h4]

/-! ff-smufl.py computes the same functions as ffsmufl.py (their metadata code
is identical; the two `canonical_glyphname`s differ only in the `ValueError`
message of the `fallback=False` branch, which the metadata code never takes). -/

theorem eqFormatFFD : FfSmufl.format_codepoint = Ffsmufl.format_codepoint := rfl

theorem eqEmToSpacesFFD : FfSmufl.em_to_spaces = Ffsmufl.em_to_spaces := rfl

theorem eqCanonicalTrue (table : GlyphTable) (u : ℤ) :
    FfSmufl.canonical_glyphname table u true = Ffsmufl.canonical_glyphname table u true := by
  unfold FfSmufl.canonical_glyphname Ffsmufl.canonical_glyphname
  rw [eqFormatFFD]
  cases dlookup table (Ffsmufl.format_codepoint u) <;> rfl

theorem eqAnchorLoopFFD (aps : List AnchorPoint) (acc : List (String × (ℚ × ℚ))) :
    FfSmufl.anchorLoop aps acc = Ffsmufl.anchorLoop aps acc := by
  induction aps generalizing acc with
  | nil => rfl
  | cons a rest ih =>
    rw [FfSmufl.anchorLoop, Ffsmufl.anchorLoop, eqEmToSpacesFFD]
    by_cases hv : a.name ∈ SMUFL_ANCHOR_NAMES
    · rw [if_pos hv, if_pos hv, ih]
    · rw [if_neg hv, if_neg hv, ih]

theorem eqAnchorsGoFFD (table : GlyphTable) (gs : List Glyph) (acc : AnchTbl) :
    FfSmufl.anchorsGo table gs acc = Ffsmufl.anchorsGo table gs acc := by
  induction gs generalizing acc with
  | nil => rfl
  | cons g rest ih =>
    simp only [FfSmufl.anchorsGo, Ffsmufl.anchorsGo, eqAnchorLoopFFD]
    by_cases hca : (Ffsmufl.anchorLoop g.anchorPoints []).isEmpty = true
    · rw [if_pos hca, if_pos hca]
      exact ih _
    · rw [if_neg hca, if_neg hca, eqCanonicalTrue]
      cases hc : Ffsmufl.canonical_glyphname table g.unicode true with
      | error e => rfl
      | ok nm => exact ih _

theorem altNamesLoopFFS_cons (table : GlyphTable) (font : Font)
    (n : String) (rest : List String) (sub : Glyph)
    (hb : font.byName n = some sub) :
    Ffsmufl.altNamesLoop table font (n :: rest) =
      match Ffsmufl.canonical_glyphname table sub.unicode true with
      | .error e => .error e
      | .ok name =>
        match Ffsmufl.altNamesLoop table font rest with
        | .error e => .error e
        | .ok recs => .ok ({ codepoint := Ffsmufl.format_codepoint sub.unicode,
                             name := name } :: recs) := by
  simp only [Ffsmufl.altNamesLoop]
  rw [hb]

theorem altNamesLoopFFD_cons (table : GlyphTable) (font : Font)
    (n : String) (rest : List String) (sub : Glyph)
    (hb : font.byName n = some sub) :
    FfSmufl.altNamesLoop table font (n :: rest) =
      match FfSmufl.canonical_glyphname table sub.unicode true with
      | .error e => .error e
      | .ok name =>
        match FfSmufl.altNamesLoop table font rest with
        | .error e => .error e
        | .ok recs => .ok ({ codepoint := FfSmufl.format_codepoint sub.unicode,
                             name := name } :: recs) := by
  simp only [FfSmufl.altNamesLoop]
  rw [hb]

theorem eqAltNamesFFD (table : GlyphTable) (font : Font) (ns : List String) :
    FfSmufl.altNamesLoop table font ns = Ffsmufl.altNamesLoop table font ns := by
  induction ns with
  | nil => rfl
  | cons n rest ih =>
    cases hb : font.byName n with
    | none =>
      simp only [FfSmufl.altNamesLoop, Ffsmufl.altNamesLoop]
      rw [hb]
    | some sub =>
      rw [altNamesLoopFFD_cons table font n rest sub hb,
          altNamesLoopFFS_cons table font n rest sub hb,
          eqCanonicalTrue, ih, eqFormatFFD]

theorem eqAltRulesFFD (table : GlyphTable) (font : Font) (rs : List PSTable) :
    FfSmufl.altRulesLoop table font rs = Ffsmufl.altRulesLoop table font rs := by
  induction rs with
  | nil => rfl
  | cons r rest ih =>
    simp only [FfSmufl.altRulesLoop, Ffsmufl.altRulesLoop, eqAltNamesFFD, ih]

theorem eqAltRecsFFD (table : GlyphTable) (font : Font) (g : Glyph) :
    FfSmufl.altRecsOfGlyph table font g = Ffsmufl.altRecsOfGlyph table font g := by
  unfold FfSmufl.altRecsOfGlyph Ffsmufl.altRecsOfGlyph
  rw [eqAltRulesFFD]

theorem alternatesGoFFS_cons_ok (table : GlyphTable) (font : Font)
    (g : Glyph) (rest : List Glyph) (acc : AltTbl) (recs : List AltRecord)
    (hr : Ffsmufl.altRecsOfGlyph table font g = .ok recs) :
    Ffsmufl.alternatesGo table font (g :: rest) acc =
      if recs.isEmpty = true then Ffsmufl.alternatesGo table font rest acc
      else
        match Ffsmufl.canonical_glyphname table g.unicode true with
        | .error e => .error e
        | .ok nm => Ffsmufl.alternatesGo table font rest
            (dinsert acc nm [("alternates", recs)]) := by
  simp only [Ffsmufl.alternatesGo]
  rw [hr]

theorem alternatesGoFFS_cons_err (table : GlyphTable) (font : Font)
    (g : Glyph) (rest : List Glyph) (acc : AltTbl) (e : PyExc)
    (hr : Ffsmufl.altRecsOfGlyph table font g = .error e) :
    Ffsmufl.alternatesGo table font (g :: rest) acc = .error e := by
  simp only [Ffsmufl.alternatesGo]
  rw [hr]

theorem alternatesGoFFD_cons_ok (table : GlyphTable) (font : Font)
    (g : Glyph) (rest : List Glyph) (acc : AltTbl) (recs : List AltRecord)
    (hr : FfSmufl.altRecsOfGlyph table font g = .ok recs) :
    FfSmufl.alternatesGo table font (g :: rest) acc =
      if recs.isEmpty = true then FfSmufl.alternatesGo table font rest acc
      else
        match FfSmufl.canonical_glyphname table g.unicode true with
        | .error e => .error e
        | .ok nm => FfSmufl.alternatesGo table font rest
            (dinsert acc nm [("alternates", recs)]) := by
  simp only [FfSmufl.alternatesGo]
  rw [hr]

theorem alternatesGoFFD_cons_err (table : GlyphTable) (font : Font)
    (g : Glyph) (rest : List Glyph) (acc : AltTbl) (e : PyExc)
    (hr : FfSmufl.altRecsOfGlyph table font g = .error e) :
    FfSmufl.alternatesGo table font (g :: rest) acc = .error e := by
  simp only [FfSmufl.alternatesGo]
  rw [hr]

theorem eqAlternatesGoFFD (table : GlyphTable) (font : Font)
    (gs : List Glyph) (acc : AltTbl) :
    FfSmufl.alternatesGo table font gs acc = Ffsmufl.alternatesGo table font gs acc := by
  induction gs generalizing acc with
  | nil => rfl
  | cons g rest ih =>
    cases hr : Ffsmufl.altRecsOfGlyph table font g with
    | error e =>
      rw [alternatesGoFFD_cons_err table font g rest acc e ((eqAltRecsFFD table font g).trans hr),
          alternatesGoFFS_cons_err table font g rest acc e hr]
    | ok recs =>
      rw [alternatesGoFFD_cons_ok table font g rest acc recs ((eqAltRecsFFD table font g).trans hr),
          alternatesGoFFS_cons_ok table font g rest acc recs hr]
      by_cases hre : recs.isEmpty = true
      · rw [if_pos hre, if_pos hre]
        exact ih _
      · rw [if_neg hre, if_neg hre, eqCanonicalTrue]
        cases hc : Ffsmufl.canonical_glyphname table g.unicode true with
        | error e => rfl
        | ok nm => exact ih _

theorem eqBoundingBoxesGoFFD (table : GlyphTable) (gs : List Glyph) (acc : BBoxTbl) :
    FfSmufl.bounding_boxesGo table gs acc = Ffsmufl.bounding_boxesGo table gs acc := by
  induction gs generalizing acc with
  | nil => rfl
  | cons g rest ih =>
    simp only [FfSmufl.bounding_boxesGo, Ffsmufl.bounding_boxesGo, eqCanonicalTrue]
    cases hc : Ffsmufl.canonical_glyphname table g.unicode true with
    | error e => rfl
    | ok nm => exact ih _

theorem eqLigaturesGoFFD (table : GlyphTable) (gs : List Glyph) (acc : LigTbl) :
    FfSmufl.ligaturesGo table gs acc = Ffsmufl.ligaturesGo table gs acc := by
  induction gs generalizing acc with
  | nil => rfl
  | cons g rest ih =>
    simp only [FfSmufl.ligaturesGo, Ffsmufl.ligaturesGo, eqCanonicalTrue]
    cases hc : Ffsmufl.canonical_glyphname table g.unicode true with
    | error e => rfl
    | ok nm => exact ih _

theorem eqAsdictFFD (table : GlyphTable) (font : Font)
    (defaults : Option (List (String × ℚ))) :
    FfSmufl.asdict table font defaults = Ffsmufl.asdict table font defaults := by
  simp only [FfSmufl.asdict, Ffsmufl.asdict,
             FfSmufl.anchors, Ffsmufl.anchors, eqAnchorsGoFFD,
             FfSmufl.alternates, Ffsmufl.alternates, eqAlternatesGoFFD,
             FfSmufl.bounding_boxes, Ffsmufl.bounding_boxes, eqBoundingBoxesGoFFD,
             FfSmufl.ligatures, Ffsmufl.ligatures, eqLigaturesGoFFD]

theorem mem_keys_of_dlookup {α : Type} (m : List (String × α)) (k : String) (v : α)
    (h : dlookup m k = some v) : k ∈ keys m := by
  induction m with
  | nil => cases h
  | cons p rest ih =>
    by_cases hp : p.1 = k
    · simp [keys, hp]
    · rw [dlookup, if_neg hp] at h
      simp [keys]
      right
      simpa [keys] using ih h

/-- The explicit shape of a successfully assembled ff_smufl_metadata.py
document. -/
theorem asdictFSM_ok_shape (table : GlyphTable) (font : Font)
    (defaults : Option (List (String × ℚ))) (alts : AltTbl) (d : List (String × Val))
    (ha : FfSmuflMetadata.glyphsWithAlternates table font = .ok alts)
    (h : FfSmuflMetadata.asdict table font defaults = .ok d) :
    d = [("fontName", Val.s font.fontname), ("fontVersion", Val.s font.version)]
      ++ edSegment defaults
      ++ (if (FfSmuflMetadata.glyphsWithAnchors table font).isEmpty then []
          else [("glyphsWithAnchors", anchVal (FfSmuflMetadata.glyphsWithAnchors table font))])
      ++ (if alts.isEmpty then [] else [("glyphsWithAlternates", altVal alts)])
      ++ (if (FfSmuflMetadata.glyphBBoxes table font).isEmpty then []
          else [("glyphBBoxes", bboxVal (FfSmuflMetadata.glyphBBoxes table font))])
      ++ (if (FfSmuflMetadata.ligatures table font).isEmpty then []
          else [("ligatures", ligVal (FfSmuflMetadata.ligatures table font))]) := by
  simp only [FfSmuflMetadata.asdict] at h
  rw [ha] at h
  exact (Except.ok.inj h).symm

/-- Evaluation of the five optional sub-table keys in a successfully
assembled document. -/
theorem asdictFSM_lookup_eval (table : GlyphTable) (font : Font)
    (defaults : Option (List (String × ℚ))) (alts : AltTbl) (d : List (String × Val))
    (ha : FfSmuflMetadata.glyphsWithAlternates table font = .ok alts)
    (h : FfSmuflMetadata.asdict table font defaults = .ok d) :
    (defaults = none → dlookup d "engravingDefaults" = none) ∧
    (∀ l, defaults = some l →
      dlookup d "engravingDefaults" = if l.isEmpty then none else some (edVal l)) ∧
    (dlookup d "glyphsWithAnchors" =
      if (FfSmuflMetadata.glyphsWithAnchors table font).isEmpty then none
      else some (anchVal (FfSmuflMetadata.glyphsWithAnchors table font))) ∧
    (dlookup d "glyphsWithAlternates" =
      if alts.isEmpty then none else some (altVal alts)) ∧
    (dlookup d "glyphBBoxes" =
      if (FfSmuflMetadata.glyphBBoxes table font).isEmpty then none
      else some (bboxVal (FfSmuflMetadata.glyphBBoxes table font))) ∧
    (dlookup d "ligatures" =
      if (FfSmuflMetadata.ligatures table font).isEmpty then none
      else some (ligVal (FfSmuflMetadata.ligatures table font))) := by
  have hd := asdictFSM_ok_shape table font defaults alts d ha h
  subst hd
  refine ⟨?_, ?_, ?_, ?_, ?_, ?_⟩ <;>
  · first
      | (intro hdef
         subst hdef
         simp only [edSegment, dlookup_append, dlookup] <;>
           split_ifs <;> simp_all [dlookup])
      | (intro l hdef
         subst hdef
         simp only [edSegment, dlookup_append, dlookup] <;>
           split_ifs <;> simp_all [dlookup])
      | (rcases defaults with _ | l <;>
          simp only [edSegment, dlookup_append, dlookup] <;>
          split_ifs <;>
          simp_all [dlookup])

/-- C2: in a successfully assembled ff_smufl_metadata.py document, each of the
five optional sub-table keys is present exactly when its computed mapping is
non-empty (for engravingDefaults: when the attribute is a non-empty mapping);
any of those keys that is present is bound to a non-empty dict; and a font
whose SMuFL-range glyphs have no recognized anchors yields a document with no
glyphsWithAnchors key at all. -/
theorem claim_C2 (table : GlyphTable) (font : Font)
    (defaults : Option (List (String × ℚ))) (d : List (String × Val))
    (alts : AltTbl)
    (ha : FfSmuflMetadata.glyphsWithAlternates table font = .ok alts)
    (h : FfSmuflMetadata.asdict table font defaults = .ok d) :
    ("engravingDefaults" ∈ keys d ↔ ∃ l, defaults = some l ∧ l ≠ []) ∧
    ("glyphsWithAnchors" ∈ keys d ↔ FfSmuflMetadata.glyphsWithAnchors table font ≠ []) ∧
    ("glyphsWithAlternates" ∈ keys d ↔ alts ≠ []) ∧
    ("glyphBBoxes" ∈ keys d ↔ FfSmuflMetadata.glyphBBoxes table font ≠ []) ∧
    ("ligatures" ∈ keys d ↔ FfSmuflMetadata.ligatures table font ≠ []) ∧
    (∀ k m, dlookup d k = some (Val.dict m) →
      k ∈ (["engravingDefaults", "glyphsWithAnchors", "glyphsWithAlternates",
            "glyphBBoxes", "ligatures"] : List String) → m ≠ []) ∧
    ((∀ g ∈ characters font, FfSmuflMetadata.anchorLoop g.anchorPoints [] = []) →
      "glyphsWithAnchors" ∉ keys d) := by
  obtain ⟨e1, e2, e3, e4, e5, e6⟩ := asdictFSM_lookup_eval table font defaults alts d ha h
  have hiff : ∀ (key : String) (o : Option Val), dlookup d key = o →
      (key ∈ keys d ↔ o.isSome) := by
    intro key o ho
    constructor
    · intro hk
      rw [← ho]
      exact dlookup_isSome_of_mem_keys d key hk
    · intro hs
      cases o with
      | none => cases hs
      | some v => exact mem_keys_of_dlookup d key v ho
  refine ⟨?_, ?_, ?_, ?_, ?_, ?_, ?_⟩
  · rcases hdef : defaults with _ | l
    · rw [hiff _ _ (e1 hdef)]
      simp
    · rw [hiff _ _ (e2 l hdef)]
      by_cases hl : l.isEmpty = true
      · rw [if_pos hl]
        simp only [List.isEmpty_iff] at hl
        subst hl
        simp
      · rw [if_neg hl]
        simp only [List.isEmpty_iff] at hl
        simp [hl]
  · rw [hiff _ _ e3]
    by_cases hl : (FfSmuflMetadata.glyphsWithAnchors table font).isEmpty = true
    · rw [if_pos hl]
      simp only [List.isEmpty_iff] at hl
      simp [hl]
    · rw [if_neg hl]
      simp only [List.isEmpty_iff] at hl
      simp [hl]
  · rw [hiff _ _ e4]
    by_cases hl : alts.isEmpty = true
    · rw [if_pos hl]
      simp only [List.isEmpty_iff] at hl
      simp [hl]
    · rw [if_neg hl]
      simp only [List.isEmpty_iff] at hl
      simp [hl]
  · rw [hiff _ _ e5]
    by_cases hl : (FfSmuflMetadata.glyphBBoxes table font).isEmpty = true
    · rw [if_pos hl]
      simp only [List.isEmpty_iff] at hl
      simp [hl]
    · rw [if_neg hl]
      simp only [List.isEmpty_iff] at hl
      simp [hl]
  · rw [hiff _ _ e6]
    by_cases hl : (FfSmuflMetadata.ligatures table font).isEmpty = true
    · rw [if_pos hl]
      simp only [List.isEmpty_iff] at hl
      simp [hl]
    · rw [if_neg hl]
      simp only [List.isEmpty_iff] at hl
      simp [hl]
  · intro k m hkm hk
    simp only [List.mem_cons, List.mem_singleton] at hk
    rcases hk with rfl | rfl | rfl | rfl | rfl | hfalse
    · rcases hdef : defaults with _ | l
      · rw [e1 hdef] at hkm
        cases hkm
      · rw [e2 l hdef] at hkm
        by_cases hl : l.isEmpty = true
        · rw [if_pos hl] at hkm
          cases hkm
        · rw [if_neg hl] at hkm
          simp only [List.isEmpty_iff] at hl
          simp only [edVal, Option.some.injEq, Val.dict.injEq] at hkm
          subst hkm
          simpa using hl
    · rw [e3] at hkm
      by_cases hl : (FfSmuflMetadata.glyphsWithAnchors table font).isEmpty = true
      · rw [if_pos hl] at hkm
        cases hkm
      · rw [if_neg hl] at hkm
        simp only [List.isEmpty_iff] at hl
        simp only [anchVal, Option.some.injEq, Val.dict.injEq] at hkm
        subst hkm
        simpa using hl
    · rw [e4] at hkm
      by_cases hl : alts.isEmpty = true
      · rw [if_pos hl] at hkm
        cases hkm
      · rw [if_neg hl] at hkm
        simp only [List.isEmpty_iff] at hl
        simp only [altVal, Option.some.injEq, Val.dict.injEq] at hkm
        subst hkm
        simpa using hl
    · rw [e5] at hkm
      by_cases hl : (FfSmuflMetadata.glyphBBoxes table font).isEmpty = true
      · rw [if_pos hl] at hkm
        cases hkm
      · rw [if_neg hl] at hkm
        simp only [List.isEmpty_iff] at hl
        simp only [bboxVal, Option.some.injEq, Val.dict.injEq] at hkm
        subst hkm
        simpa using hl
    · rw [e6] at hkm
      by_cases hl : (FfSmuflMetadata.ligatures table font).isEmpty = true
      · rw [if_pos hl] at hkm
        cases hkm
      · rw [if_neg hl] at hkm
        simp only [List.isEmpty_iff] at hl
        simp only [ligVal, Option.some.injEq, Val.dict.injEq] at hkm
        subst hkm
        simpa using hl
    · cases hfalse
  · intro hall
    have hz : FfSmuflMetadata.glyphsWithAnchors table font = [] :=
      glyphsWithAnchorsGo_all_empty table (characters font) [] hall
    rw [hiff _ _ e3, hz]
    simp

/-- C1: in any successfully assembled ff_smufl_metadata.py document, every key
of every glyph-keyed sub-table (glyphsWithAnchors, glyphsWithAlternates,
glyphBBoxes, ligatures) is the resolved canonical name of a glyph of the font
whose codepoint lies in the closed range [57344, 62463]; glyphs outside that
range contribute to no sub-table. -/
theorem claim_C1 (table : GlyphTable) (font : Font)
    (defaults : Option (List (String × ℚ))) (d : List (String × Val))
    (sub : String) (m : List (String × Val))
    (h : FfSmuflMetadata.asdict table font defaults = .ok d)
    (hsub : sub ∈ (["glyphsWithAnchors", "glyphsWithAlternates", "glyphBBoxes",
                    "ligatures"] : List String))
    (hm : dlookup d sub = some (Val.dict m)) :
    ∀ k ∈ keys m, ∃ g ∈ font.glyphs,
      57344 ≤ g.unicode ∧ g.unicode ≤ 62463 ∧ canonicalNameFB table g = k := by
  cases ha : FfSmuflMetadata.glyphsWithAlternates table font with
  | error e =>
    simp only [FfSmuflMetadata.asdict] at h
    rw [ha] at h
    cases h
  | ok alts =>
  obtain ⟨e1, e2, e3, e4, e5, e6⟩ := asdictFSM_lookup_eval table font defaults alts d ha h
  intro k hk
  have hchar : ∀ g, g ∈ characters font →
      g ∈ font.glyphs ∧ 57344 ≤ g.unicode ∧ g.unicode ≤ 62463 := by
    intro g hg
    rw [characters, List.mem_filter] at hg
    have h2 := hg.2
    simp only [Bool.and_eq_true, decide_eq_true_eq] at h2
    exact ⟨hg.1, h2.1, h2.2⟩
  simp only [List.mem_cons, List.mem_singleton] at hsub
  rcases hsub with rfl | rfl | rfl | rfl | hfalse
  · rw [e3] at hm
    by_cases hl : (FfSmuflMetadata.glyphsWithAnchors table font).isEmpty = true
    · rw [if_pos hl] at hm
      cases hm
    · rw [if_neg hl] at hm
      simp only [anchVal, Option.some.injEq, Val.dict.injEq] at hm
      subst hm
      have hk' : k ∈ keys (FfSmuflMetadata.glyphsWithAnchors table font) := by
        simpa [keys, List.map_map, Function.comp] using hk
      rcases glyphsWithAnchorsGo_keys table (characters font) [] k hk' with hf | ⟨g, hg, hgk⟩
      · simp [keys] at hf
      · obtain ⟨h1, h2, h3⟩ := hchar g hg
        exact ⟨g, h1, h2, h3, hgk⟩
  · rw [e4] at hm
    by_cases hl : alts.isEmpty = true
    · rw [if_pos hl] at hm
      cases hm
    · rw [if_neg hl] at hm
      simp only [altVal, Option.some.injEq, Val.dict.injEq] at hm
      subst hm
      have hk' : k ∈ keys alts := by
        simpa [keys, List.map_map, Function.comp] using hk
      rcases glyphsWithAlternatesGo_keys table font (characters font) [] alts k ha hk'
        with hf | ⟨g, hg, hgk⟩
      · simp [keys] at hf
      · obtain ⟨h1, h2, h3⟩ := hchar g hg
        exact ⟨g, h1, h2, h3, hgk⟩
  · rw [e5] at hm
    by_cases hl : (FfSmuflMetadata.glyphBBoxes table font).isEmpty = true
    · rw [if_pos hl] at hm
      cases hm
    · rw [if_neg hl] at hm
      simp only [bboxVal, Option.some.injEq, Val.dict.injEq] at hm
      subst hm
      have hk' : k ∈ keys (FfSmuflMetadata.glyphBBoxes table font) := by
        simpa [keys, List.map_map, Function.comp] using hk
      rcases glyphBBoxesGo_keys table (characters font) [] k hk' with hf | ⟨g, hg, hgk⟩
      · simp [keys] at hf
      · obtain ⟨h1, h2, h3⟩ := hchar g hg
        exact ⟨g, h1, h2, h3, hgk⟩
  · rw [e6] at hm
    by_cases hl : (FfSmuflMetadata.ligatures table font).isEmpty = true
    · rw [if_pos hl] at hm
      cases hm
    · rw [if_neg hl] at hm
      simp only [ligVal, Option.some.injEq, Val.dict.injEq] at hm
      subst hm
      have hk' : k ∈ keys (FfSmuflMetadata.ligatures table font) := by
        simpa [keys, List.map_map, Function.comp] using hk
      rcases ligaturesGo_keys table (characters font) [] k hk' with hf | ⟨g, hg, hgk⟩
      · simp [keys] at hf
      · obtain ⟨h1, h2, h3⟩ := hchar g hg
        exact ⟨g, h1, h2, h3, hgk⟩
  · cases hfalse

theorem smufl_codepoint_eq_format (g : Glyph) :
    FfSmuflMetadata.smufl_codepoint g = Ffsmufl.format_codepoint g.unicode := rfl

/-- C4: every glyph of the font whose codepoint is in [57344, 62463]
appears as a key of glyphBBoxes — no filtering beyond the range — mapped to
`{bBoxNE: (round(xmax/250, 3), round(ymax/250, 3)),
  bBoxSW: (round(xmin/250, 3), round(ymin/250, 3))}` where the bounding box is
(xmin, ymin, xmax, ymax); the Nodup hypothesis rules out two in-range glyphs
resolving to the same canonical name (a dict key can hold only one record). -/
theorem claim_C4 (table : GlyphTable) (font : Font) (g : Glyph)
    (hg : g ∈ font.glyphs) (h1 : 57344 ≤ g.unicode) (h2 : g.unicode ≤ 62463)
    (hn : ((characters font).map (canonicalNameFB table)).Nodup) :
    dlookup (FfSmuflMetadata.glyphBBoxes table font) (canonicalNameFB table g) =
      some [("bBoxNE", (round3 (g.boundingBox.2.2.1 / 250),
                        round3 (g.boundingBox.2.2.2 / 250))),
            ("bBoxSW", (round3 (g.boundingBox.1 / 250),
                        round3 (g.boundingBox.2.1 / 250)))] := by
  have hgc : g ∈ characters font := by
    rw [characters, List.mem_filter]
    exact ⟨hg, by simp [h1, h2]⟩
  exact glyphBBoxesGo_dlookup_target table (characters font) [] g hgc hn

/-- C4 witness: the scenario glyph's bounding-box record. -/
theorem claim_C4_witness :
    dlookup (FfSmuflMetadata.glyphBBoxes exTable1 exFont1)
        (canonicalNameFB exTable1 exGlyphNB) =
      some [("bBoxNE", (round3 (exGlyphNB.boundingBox.2.2.1 / 250),
                        round3 (exGlyphNB.boundingBox.2.2.2 / 250))),
            ("bBoxSW", (round3 (exGlyphNB.boundingBox.1 / 250),
                        round3 (exGlyphNB.boundingBox.2.1 / 250)))] :=
  claim_C4 exTable1 exFont1 exGlyphNB (by decide)
    (by decide) (by decide)
    (by decide)

/-- C3: the anchors extraction of ffsmufl.py keeps, for each SMuFL-range
glyph, exactly the anchor points whose name is one of the 21 recognized
names (others are dropped without error), maps each kept anchor to
`(round(x/250, 3), round(y/250, 3))`, and includes the glyph in the table
(under its canonical name) iff it has at least one recognized anchor; and the
spec's concrete scenario: one glyph at 57344 named noteheadBlack with a single
`stemUpSE` anchor at (40, 100) and no lookups yields the anchors table
`{"noteheadBlack": {"stemUpSE": [0.16, 0.4]}}` and a document with no
glyphsWithAlternates and no ligatures keys. -/
theorem claim_C3 (table : GlyphTable) (font : Font) (m : AnchTbl)
    (g : Glyph) (nm : String)
    (hm : Ffsmufl.anchors table font = .ok m)
    (hn : ((characters font).map (canonicalNameFB table)).Nodup)
    (hg : g ∈ characters font)
    (hhit : dlookup table (Ffsmufl.format_codepoint g.unicode) = some nm) :
    (∀ an, an ∈ keys (Ffsmufl.anchorLoop g.anchorPoints []) ↔
      ∃ a ∈ g.anchorPoints, a.name = an ∧ a.name ∈ SMUFL_ANCHOR_NAMES) ∧
    ((g.anchorPoints.map AnchorPoint.name).Nodup →
      ∀ a ∈ g.anchorPoints, a.name ∈ SMUFL_ANCHOR_NAMES →
        dlookup (Ffsmufl.anchorLoop g.anchorPoints []) a.name =
          some (round3 (a.x / 250), round3 (a.y / 250))) ∧
    (dlookup m nm =
      if (Ffsmufl.anchorLoop g.anchorPoints []).isEmpty = true then none
      else some (Ffsmufl.anchorLoop g.anchorPoints [])) ∧
    (Ffsmufl.anchors exTable1 exFont1 =
      .ok [("noteheadBlack", [("stemUpSE", ((0.16 : ℚ), (0.4 : ℚ)))])]) ∧
    Ffsmufl.asdict exTable1 exFont1 none = .ok exDoc1 ∧
    "glyphsWithAlternates" ∉ keys exDoc1 ∧
    "ligatures" ∉ keys exDoc1 := by
  have hmm := anchors_transfer table font m hm
  have hcn : canonicalNameFB table g = nm := canonicalNameFB_of_hit table g nm hhit
  refine ⟨?_, ?_, ?_, by with_unfolding_all rfl, by with_unfolding_all rfl,
    by decide, by decide⟩
  · intro an
    rw [anchorLoop_ffs_eq]
    rw [anchorLoop_mem_keys g.anchorPoints [] an]
    simp [keys]
  · intro hnn a ha hv
    rw [anchorLoop_ffs_eq]
    exact anchorLoop_dlookup_target g.anchorPoints [] a ha hv hnn
  · rw [← hmm, ← hcn, anchorLoop_ffs_eq]
    exact glyphsWithAnchorsGo_dlookup_target table (characters font) [] g hg hn
      (by simp [keys])

/-- C3 witness: the general clauses instantiated at the scenario input. -/
theorem claim_C3_witness :
    dlookup [("noteheadBlack", [("stemUpSE", ((0.16 : ℚ), (0.4 : ℚ)))])] "noteheadBlack" =
      if (Ffsmufl.anchorLoop exGlyphNB.anchorPoints []).isEmpty = true then none
      else some (Ffsmufl.anchorLoop exGlyphNB.anchorPoints []) :=
  (claim_C3 exTable1 exFont1
      [("noteheadBlack", [("stemUpSE", ((0.16 : ℚ), (0.4 : ℚ)))])]
      exGlyphNB "noteheadBlack"
      (by with_unfolding_all rfl) (by decide)
      (by decide) (by decide)).2.2.1

/-- C1 witness: the scenario document's glyphsWithAnchors key is the canonical
name of an in-range glyph of the font. -/
theorem claim_C1_witness :
    ∃ g ∈ exFont1.glyphs,
      57344 ≤ g.unicode ∧ g.unicode ≤ 62463 ∧
      canonicalNameFB exTable1 g = "noteheadBlack" :=
  claim_C1 exTable1 exFont1 none exDoc1 "glyphsWithAnchors"
    [("noteheadBlack", Val.dict [("stemUpSE", Val.arr [Val.num 0.16, Val.num 0.4])])]
    (by with_unfolding_all rfl) (by decide) (by with_unfolding_all rfl)
    "noteheadBlack" (by decide)

/-- C2 witness: key presence iff non-emptiness, at the scenario input. -/
theorem claim_C2_witness :
    "glyphsWithAnchors" ∈ keys exDoc1 ↔
      FfSmuflMetadata.glyphsWithAnchors exTable1 exFont1 ≠ [] :=
  (claim_C2 exTable1 exFont1 none exDoc1 [] (by with_unfolding_all rfl)
    (by with_unfolding_all rfl)).2.1

/-- C5 counterexample: on a table miss with fallback disabled the code raises
`ValueError`, which is not a subclass of Python's `LookupError` (the claim
says the failure is a `LookupError`). -/
theorem claim_C5_cex :
    FfSmuflMetadata.smufl_canonical_name ([] : GlyphTable) cexGlyph5 false =
      .error (.valueError "there’s no SMuFL character defined at codepoint U+E000.") ∧
    PyExc.isLookupError
      (.valueError "there’s no SMuFL character defined at codepoint U+E000.") = false :=
  ⟨by with_unfolding_all rfl, rfl⟩

/-- C5 (amended): canonical-name lookup returns the table's mapped name on a
hit (with or without fallback); on a miss, ff_smufl_metadata.py's
`smufl_canonical_name` returns the glyph's pre-existing name when fallback is
enabled and raises `ValueError` — not `LookupError` — when fallback is
disabled, while ffsmufl.py's `canonical_glyphname` raises `NameError` on the
fallback path (its `glyph` variable is unbound). -/
theorem claim_C5 (table : GlyphTable) (g : Glyph) :
    (∀ nm, dlookup table (FfSmuflMetadata.smufl_codepoint g) = some nm →
      FfSmuflMetadata.smufl_canonical_name table g true = .ok nm ∧
      FfSmuflMetadata.smufl_canonical_name table g false = .ok nm) ∧
    (dlookup table (FfSmuflMetadata.smufl_codepoint g) = none →
      FfSmuflMetadata.smufl_canonical_name table g true = .ok g.glyphname ∧
      FfSmuflMetadata.smufl_canonical_name table g false =
        .error (.valueError ("there’s no SMuFL character defined at codepoint "
          ++ FfSmuflMetadata.smufl_codepoint g ++ ".")) ∧
      (∀ e, FfSmuflMetadata.smufl_canonical_name table g false = .error e →
        e.isLookupError = false) ∧
      Ffsmufl.canonical_glyphname table g.unicode true = .error .nameError) := by
  constructor
  · intro nm hnm
    unfold FfSmuflMetadata.smufl_canonical_name
    rw [hnm]
    exact ⟨rfl, rfl⟩
  · intro hmiss
    have hmiss' : dlookup table (Ffsmufl.format_codepoint g.unicode) = none := hmiss
    unfold FfSmuflMetadata.smufl_canonical_name Ffsmufl.canonical_glyphname
    rw [hmiss, hmiss']
    refine ⟨rfl, rfl, ?_, rfl⟩
    intro e he
    cases he
    rfl

/-- C5 witness: a hit returns the mapped name; a miss with fallback returns
the glyph's pre-existing name. -/
theorem claim_C5_witness :
    FfSmuflMetadata.smufl_canonical_name exTable1 exGlyphNB true = .ok "noteheadBlack" ∧
    FfSmuflMetadata.smufl_canonical_name ([] : GlyphTable) cexGlyph5 true = .ok "fooGlyph" :=
  ⟨((claim_C5 exTable1 exGlyphNB).1 "noteheadBlack" (by decide)).1,
   ((claim_C5 ([] : GlyphTable) cexGlyph5).2 (by decide)).1⟩

/-- C6 counterexample: the glyphsWithAlternates entry does not bind the
canonical name to the bare list of `{codepoint, name}` records — it binds it
to the one-key dict `{'alternates': [...]}` wrapping that list. -/
theorem claim_C6_cex :
    FfSmuflMetadata.asdict exTable6 exFont6 none = .ok exDoc6 ∧
    dlookup exDoc6 "glyphsWithAlternates" =
      some (Val.dict [("noteheadBlack",
        Val.dict [("alternates", Val.arr [Val.dict [("codepoint", Val.s "U+F600"),
                                                    ("name", Val.s "noteheadBlackAlt")]])])]) ∧
    Val.dict [("alternates", Val.arr [Val.dict [("codepoint", Val.s "U+F600"),
                                                ("name", Val.s "noteheadBlackAlt")]])] ≠
      Val.arr [Val.dict [("codepoint", Val.s "U+F600"),
                         ("name", Val.s "noteheadBlackAlt")]] := by
  refine ⟨by with_unfolding_all rfl, by with_unfolding_all rfl, ?_⟩
  intro hcontra
  cases hcontra

/-- C6 (amended): for every SMuFL-range glyph with at least one 'AltSubs'
substitute, the glyphsWithAlternates sub-table maps the glyph's canonical name
to the one-key record `{alternates: [list of {codepoint, name} records in rule
order]}`; a glyph with no alternate-substitution records is absent. -/
theorem claim_C6 (table : GlyphTable) (font : Font) (m : AltTbl)
    (g : Glyph) (recs : List AltRecord)
    (hm : FfSmuflMetadata.glyphsWithAlternates table font = .ok m)
    (hn : ((characters font).map (canonicalNameFB table)).Nodup)
    (hg : g ∈ characters font)
    (hr : FfSmuflMetadata.altRecsOfGlyph table font g = .ok recs) :
    dlookup m (canonicalNameFB table g) =
      if recs.isEmpty = true then none else some [("alternates", recs)] :=
  glyphsWithAlternatesGo_dlookup_target table font (characters font) [] m g recs
    hm hg hn (by simp [keys]) hr

/-- C6 witness: the alternates entry of the example font. -/
theorem claim_C6_witness :
    dlookup [("noteheadBlack",
        [("alternates", [({ codepoint := "U+F600", name := "noteheadBlackAlt" } : AltRecord)])])]
      (canonicalNameFB exTable6 exGlyphAltBase) =
      if [({ codepoint := "U+F600", name := "noteheadBlackAlt" } : AltRecord)].isEmpty = true
      then none
      else some [("alternates", [({ codepoint := "U+F600", name := "noteheadBlackAlt" } : AltRecord)])] :=
  claim_C6 exTable6 exFont6
    [("noteheadBlack", [("alternates", [{ codepoint := "U+F600", name := "noteheadBlackAlt" }])])]
    exGlyphAltBase [{ codepoint := "U+F600", name := "noteheadBlackAlt" }]
    (by with_unfolding_all rfl) (by decide)
    (by decide) (by with_unfolding_all rfl)

/-- C7: when a SMuFL-range glyph has two or more 'Ligature' lookup rules, the
ligatures sub-table entry under its canonical name holds exactly the component
list of the last rule processed together with the glyph's formatted codepoint
(last-write-wins), and every record anywhere in the sub-table is the
last-rule record of the glyph that produced it — the component lists of
earlier rules appear nowhere. -/
theorem claim_C7 (table : GlyphTable) (font : Font) (m : LigTbl)
    (g : Glyph) (nm : String) (rs : List PSTable) (r : PSTable)
    (hm : Ffsmufl.ligatures table font = .ok m)
    (hn : ((characters font).map (canonicalNameFB table)).Nodup)
    (hg : g ∈ characters font)
    (hhit : dlookup table (Ffsmufl.format_codepoint g.unicode) = some nm)
    (hrs : g.posSub.filter (fun t => t.typ == "Ligature") = rs)
    (hlen : 2 ≤ rs.length)
    (hlast : rs.getLast? = some r) :
    dlookup m nm =
      some { codepoint := Ffsmufl.format_codepoint g.unicode,
             componentGlyphs := r.data } ∧
    (∀ p ∈ m, ∃ g' ∈ characters font, ∃ r',
      (g'.posSub.filter (fun t => t.typ == "Ligature")).getLast? = some r' ∧
      p = (canonicalNameFB table g',
           { codepoint := Ffsmufl.format_codepoint g'.unicode,
             componentGlyphs := r'.data })) := by
  have hmm := ligatures_transfer table font m hm
  have hcn : canonicalNameFB table g = nm := canonicalNameFB_of_hit table g nm hhit
  constructor
  · rw [← hmm, ← hcn]
    have := ligaturesGo_dlookup_target table (characters font) [] g hg hn (by simp [keys])
    rw [hrs, hlast] at this
    exact this
  · intro p hp
    rw [← hmm] at hp
    rcases ligaturesGo_values table (characters font) [] p hp with hf | ⟨g', hg', r', hr', rfl⟩
    · cases hf
    · exact ⟨g', hg', r', hr', rfl⟩

/-- C7 witness: the example glyph with two ligature rules keeps only the last
rule's component list. -/
theorem claim_C7_witness :
    dlookup [("ligGlyph", ({ codepoint := "U+E001", componentGlyphs := ["c", "d"] } : LigRecord))]
        "ligGlyph" =
      some { codepoint := Ffsmufl.format_codepoint exGlyphLig.unicode,
             componentGlyphs := ["c", "d"] } :=
  (claim_C7 exTable7 exFont7
    [("ligGlyph", { codepoint := "U+E001", componentGlyphs := ["c", "d"] })]
    exGlyphLig "ligGlyph"
    [{ sub := "liga1", typ := "Ligature", data := ["a", "b"] },
     { sub := "liga2", typ := "Ligature", data := ["c", "d"] }]
    { sub := "liga2", typ := "Ligature", data := ["c", "d"] }
    (by with_unfolding_all rfl) (by decide)
    (by decide) (by decide)
    (by decide) (by decide) (by decide)).1

/-- C10 counterexample: on a font whose single SMuFL-range glyph has no entry
in the reference table, ffsmufl.py's asdict raises `NameError` (the unbound
`glyph` in `canonical_glyphname`'s fallback branch, reached unconditionally by
its bounding-box pass) while ff_smufl_metadata.py's asdict succeeds with the
fallback name — the implementations are not equivalent on every font handle. -/
theorem claim_C10_cex :
    Ffsmufl.asdict ([] : GlyphTable) cexFont10 none = .error .nameError ∧
    FfSmuflMetadata.asdict ([] : GlyphTable) cexFont10 none =
      .ok [("fontName", Val.s "Sebastian"), ("fontVersion", Val.s "1.0"),
           ("glyphBBoxes", Val.dict [("gg",
              Val.dict [("bBoxNE", Val.arr [Val.num 0, Val.num 0]),
                        ("bBoxSW", Val.arr [Val.num 0, Val.num 0])])])] ∧
    Ffsmufl.asdict ([] : GlyphTable) cexFont10 none ≠
      FfSmuflMetadata.asdict ([] : GlyphTable) cexFont10 none := by
  have e1 : Ffsmufl.asdict ([] : GlyphTable) cexFont10 none = .error .nameError := by
    with_unfolding_all rfl
  have e2 : FfSmuflMetadata.asdict ([] : GlyphTable) cexFont10 none =
      .ok [("fontName", Val.s "Sebastian"), ("fontVersion", Val.s "1.0"),
           ("glyphBBoxes", Val.dict [("gg",
              Val.dict [("bBoxNE", Val.arr [Val.num 0, Val.num 0]),
                        ("bBoxSW", Val.arr [Val.num 0, Val.num 0])])])] := by
    with_unfolding_all rfl
  refine ⟨e1, e2, ?_⟩
  rw [e1, e2]
  intro hcontra
  cases hcontra

/-- C10 (amended): whenever the ffsmufl.py assembly produces a document (every
canonical-name lookup hits the reference table), all three implementations
produce exactly that document; ff-smufl.py's assembly moreover equals
ffsmufl.py's on every input. -/
theorem claim_C10 (table : GlyphTable) (font : Font)
    (defaults : Option (List (String × ℚ))) (d : List (String × Val))
    (h : Ffsmufl.asdict table font defaults = .ok d) :
    FfSmuflMetadata.asdict table font defaults = .ok d ∧
    FfSmufl.asdict table font defaults = .ok d ∧
    FfSmufl.asdict table font defaults = Ffsmufl.asdict table font defaults :=
  ⟨asdict_transfer table font defaults d h,
   (eqAsdictFFD table font defaults).trans h,
   eqAsdictFFD table font defaults⟩

/-- C10 witness: all three implementations produce the scenario document. -/
theorem claim_C10_witness :
    FfSmuflMetadata.asdict exTable1 exFont1 none = .ok exDoc1 ∧
    FfSmufl.asdict exTable1 exFont1 none = .ok exDoc1 ∧
    FfSmufl.asdict exTable1 exFont1 none = Ffsmufl.asdict exTable1 exFont1 none :=
  claim_C10 exTable1 exFont1 none exDoc1 (by with_unfolding_all rfl)
